import Mathlib

/-!
# Verification of the dotfiles diff/review engine

A shallow embedding of the repository's diff/review code:

* `src/diff.py` — `diff` delegates to Python's `difflib.ndiff` (CPython 3.11
  `difflib.py`: `SequenceMatcher` and `Differ`), so the relevant parts of
  `difflib` are embedded here faithfully; `pretty_print` is embedded as a pure
  function producing the sequence of printed rows.
* `src/deploy.py` — `TemplateFile` (render/has_diff/write) and the interactive
  review loop of `main`, embedded as pure state-passing functions over an
  explicit filesystem/input model.

Python strings are modelled as `List Char`; machine integers do not overflow in
any reachable computation here, so `Nat`/`Int` are used directly.  Python float
ratios (`2.0 * matches / length`) are modelled as exact unreduced fractions
`ℕ × ℕ`, compared by cross-multiplication (see `Difflib.Ratio`).
-/

namespace PyStr

/-- Python `str.isspace` for a single character (the whitespace code points of
`str.isspace`, restricted to the characters that can actually occur here). -/
def pyIsSpace (c : Char) : Bool :=
  c.val = 0x20 ∨ c.val = 0x09 ∨ c.val = 0x0a ∨ c.val = 0x0b ∨ c.val = 0x0c ∨
  c.val = 0x0d ∨ c.val = 0x1c ∨ c.val = 0x1d ∨ c.val = 0x1e ∨ c.val = 0x1f ∨
  c.val = 0x85 ∨ c.val = 0xa0 ∨ c.val = 0x1680 ∨
  (0x2000 ≤ c.val ∧ c.val ≤ 0x200a) ∨ c.val = 0x2028 ∨ c.val = 0x2029 ∨
  c.val = 0x202f ∨ c.val = 0x205f ∨ c.val = 0x3000

/-- A character that terminates a line for Python `str.splitlines`. -/
def isLineBoundary (c : Char) : Bool :=
  c.val = 0x0a ∨ c.val = 0x0d ∨ c.val = 0x0b ∨ c.val = 0x0c ∨ c.val = 0x1c ∨
  c.val = 0x1d ∨ c.val = 0x1e ∨ c.val = 0x85 ∨ c.val = 0x2028 ∨ c.val = 0x2029

/-- Python `str.splitlines()` (no `keepends`): `cur` is the current line read
so far, in reverse.  A `"\r\n"` pair counts as a single boundary; a final
partial line is kept, a trailing terminator adds no empty line. -/
def splitlinesAux (cur : List Char) : List Char → List (List Char)
  | [] => if cur = [] then [] else [cur.reverse]
  | '\r' :: '\n' :: rest => cur.reverse :: splitlinesAux [] rest
  | c :: rest =>
    if isLineBoundary c then cur.reverse :: splitlinesAux [] rest
    else splitlinesAux (c :: cur) rest

/-- Python `str.splitlines()` on a string modelled as `List Char`. -/
def splitlines (s : List Char) : List (List Char) := splitlinesAux [] s

/-- Python `str.rstrip()` (strip trailing whitespace). -/
def pyRstrip (l : List Char) : List Char := (l.reverse.dropWhile pyIsSpace).reverse

/-- Python `str.strip()` (strip leading and trailing whitespace). -/
def pyStrip (l : List Char) : List Char := pyRstrip (l.dropWhile pyIsSpace)

end PyStr

namespace Difflib

/-- The slice `x[lo:hi]` of a Python list (for `lo ≤ hi ≤ len`). -/
def slice {α : Type} (x : List α) (lo hi : ℕ) : List α := (x.take hi).drop lo

section SM

variable {α : Type} [DecidableEq α] [Inhabited α]

/-- Indices `i` with `b[i] = x`, in increasing order (`b2j` before purging). -/
def idxsOf (b : List α) (x : α) : List ℕ :=
  (List.range b.length).filter (fun i => decide (b.getD i default = x))

variable (isjunk : α → Bool) (autojunk : Bool)

/-- `SequenceMatcher.__chain_b`'s `b2j` mapping: all indices of `x` in `b`,
except that entries for junk elements and (when `autojunk` and `len(b) >= 200`)
"popular" elements are deleted wholesale. -/
def b2j (b : List α) (x : α) : List ℕ :=
  if isjunk x then []
  else
    let idxs := idxsOf b x
    if autojunk ∧ 200 ≤ b.length ∧ b.length / 100 + 1 < idxs.length then []
    else idxs

/-- `self.bjunk.__contains__`: `bjunk` is the set of junk elements occurring in
`b`. -/
def bjunkMem (b : List α) (x : α) : Bool := isjunk x && b.contains x

/-- State of `find_longest_match`'s main double loop: the `j2len` dict (a total
function, `0` for absent keys) and the best match so far. -/
structure FlmSt where
  j2len : ℕ → ℕ
  besti : ℕ
  bestj : ℕ
  bestsize : ℕ

variable (a b : List α)

/-- `k = j2len.get(j-1, 0) + 1` of the inner loop of `find_longest_match`,
reading the previous row's dict `old`; Python's `j2len.get(-1, 0)` is `0`,
hence the `j = 0` case. -/
def kval (old : ℕ → ℕ) : ℕ → ℕ
  | 0 => 0 + 1
  | j' + 1 => old j' + 1

/-- One step of the inner loop of `find_longest_match`, at row `i`, column `j`:
`k = newj2len[j] = j2len.get(j-1, 0) + 1` (reading the previous row's dict
`old`), updating the best when `k > bestsize` (then
`besti, bestj = i-k+1, j-k+1`). -/
def rowStep (old : ℕ → ℕ) (i : ℕ) (st : FlmSt) (j : ℕ) : FlmSt :=
  { j2len := fun x => if x = j then kval old j else st.j2len x
    besti := if st.bestsize < kval old j then i + 1 - kval old j else st.besti
    bestj := if st.bestsize < kval old j then j + 1 - kval old j else st.bestj
    bestsize := if st.bestsize < kval old j then kval old j else st.bestsize }

/-- The columns scanned in row `i`: `b2j.get(a[i], [])` restricted to
`[blo, bhi)` (Python's `continue`/`break` on a sorted index list). -/
def rowCols (blo bhi : ℕ) (i : ℕ) : List ℕ :=
  (b2j isjunk autojunk b (a.getD i default)).filter
    (fun j => decide (blo ≤ j) && decide (j < bhi))

/-- The main double loop of `find_longest_match`: for each row
`i ∈ range(alo, ahi)`, fold over the columns of `rowCols`, starting each row
from an empty `newj2len`. -/
def flmMain (alo ahi blo bhi : ℕ) : FlmSt :=
  (List.range' alo (ahi - alo)).foldl
    (fun st i =>
      (rowCols isjunk autojunk a b blo bhi i).foldl
        (rowStep st.j2len i) { st with j2len := fun _ => 0 })
    ⟨fun _ => 0, alo, blo, 0⟩

/-- The two backward extension `while` loops of `find_longest_match` (the
non-junk one with `junkPhase = false`, the junk one with `junkPhase = true`):
extend while `besti > alo`, `bestj > blo`, the junk test on `b[bestj-1]`
matches the phase, and `a[besti-1] == b[bestj-1]`.  The loop decrements `bi`
while `alo < bi`, so it runs at most `bi` times; the structural `fuel`
argument is passed as `bi` by `flm` and never runs out. -/
def extBack (junkPhase : Bool) (alo blo : ℕ) : ℕ → ℕ → ℕ → ℕ → ℕ × ℕ × ℕ
  | 0, bi, bj, bs => (bi, bj, bs)
  | fuel + 1, bi, bj, bs =>
    if alo < bi ∧ blo < bj ∧
        bjunkMem isjunk b (b.getD (bj - 1) default) = junkPhase ∧
        a.getD (bi - 1) default = b.getD (bj - 1) default then
      extBack junkPhase alo blo fuel (bi - 1) (bj - 1) (bs + 1)
    else (bi, bj, bs)

/-- The two forward extension `while` loops of `find_longest_match`: extend
while `besti+bestsize < ahi`, `bestj+bestsize < bhi`, the junk test on
`b[bestj+bestsize]` matches the phase, and
`a[besti+bestsize] == b[bestj+bestsize]`.  The loop increments `bs` while
`bi + bs < ahi`, so it runs at most `ahi` times; the structural `fuel`
argument is passed as `ahi` by `flm` and never runs out. -/
def extFwd (junkPhase : Bool) (ahi bhi : ℕ) : ℕ → ℕ → ℕ → ℕ → ℕ
  | 0, _, _, bs => bs
  | fuel + 1, bi, bj, bs =>
    if bi + bs < ahi ∧ bj + bs < bhi ∧
        bjunkMem isjunk b (b.getD (bj + bs) default) = junkPhase ∧
        a.getD (bi + bs) default = b.getD (bj + bs) default then
      extFwd junkPhase ahi bhi fuel bi bj (bs + 1)
    else bs

/-- `SequenceMatcher.find_longest_match(alo, ahi, blo, bhi)`: the main double
loop, then the four extension loops, returning `(besti, bestj, bestsize)`. -/
def flm (alo ahi blo bhi : ℕ) : ℕ × ℕ × ℕ :=
  let st := flmMain isjunk autojunk a b alo ahi blo bhi
  let e1 := extBack isjunk a b false alo blo st.besti st.besti st.bestj st.bestsize
  let s2 := extFwd isjunk a b false ahi bhi ahi e1.1 e1.2.1 e1.2.2
  let e3 := extBack isjunk a b true alo blo e1.1 e1.1 e1.2.1 s2
  let s4 := extFwd isjunk a b true ahi bhi ahi e3.1 e3.2.1 e3.2.2
  (e3.1, e3.2.1, s4)

end SM

section SMBounds

variable {α : Type} [DecidableEq α] [Inhabited α]
variable (isjunk : α → Bool) (autojunk : Bool) (a b : List α)

/-- Invariant of `flmMain`'s state after processing `m` rows starting at
`alo`: the best match is in-window and ends within the processed rows, and
`j2len` values are bounded by the row count and by the column window. -/
def MainInv (alo blo bhi m : ℕ) (st : FlmSt) : Prop :=
  alo ≤ st.besti ∧ blo ≤ st.bestj ∧ st.besti + st.bestsize ≤ alo + m ∧
  st.bestj + st.bestsize ≤ bhi ∧
  ∀ j, st.j2len j ≤ m ∧ (st.j2len j ≠ 0 → blo ≤ j ∧ j < bhi ∧ st.j2len j ≤ j + 1 - blo)

/-- The within-row variant of `MainInv`, for the state evolving through row
`i = alo + m`. -/
def RowInv (alo blo bhi m i : ℕ) (st : FlmSt) : Prop :=
  alo ≤ st.besti ∧ blo ≤ st.bestj ∧ st.besti + st.bestsize ≤ i + 1 ∧
  st.bestj + st.bestsize ≤ bhi ∧
  ∀ j, st.j2len j ≤ m + 1 ∧ (st.j2len j ≠ 0 → blo ≤ j ∧ j < bhi ∧ st.j2len j ≤ j + 1 - blo)

theorem kval_le_of {old : ℕ → ℕ} {m : ℕ} (hold : ∀ j, old j ≤ m) (j : ℕ) :
    kval old j ≤ m + 1 := by
  cases j with
  | zero => simp [kval]
  | succ j' => simpa [kval] using hold j'

theorem kval_col_of {old : ℕ → ℕ} {blo : ℕ}
    (hold : ∀ j, old j ≠ 0 → blo ≤ j ∧ old j ≤ j + 1 - blo)
    {j : ℕ} (hj : blo ≤ j) : kval old j ≤ j + 1 - blo := by
  cases j with
  | zero => simp [kval]; omega
  | succ j' =>
    by_cases hz : old j' = 0
    · simp [kval, hz]; omega
    · have := hold j' hz; simp only [kval]; omega

theorem rowStep_pres {alo blo bhi m i : ℕ} {old : ℕ → ℕ}
    (hold : ∀ j, old j ≤ m ∧ (old j ≠ 0 → blo ≤ j ∧ old j ≤ j + 1 - blo))
    (hi : i = alo + m) {j0 : ℕ} (hj0b : blo ≤ j0) (hj0h : j0 < bhi)
    {st : FlmSt} (hst : RowInv alo blo bhi m i st) :
    RowInv alo blo bhi m i (rowStep old i st j0) := by
  obtain ⟨h1, h2, h3, h4, h5⟩ := hst
  have hkm : kval old j0 ≤ m + 1 := kval_le_of (fun j => (hold j).1) j0
  have hkj : kval old j0 ≤ j0 + 1 - blo := kval_col_of (fun j => (hold j).2) hj0b
  have hk1 : 1 ≤ kval old j0 := by cases j0 <;> simp [kval]
  refine ⟨?_, ?_, ?_, ?_, ?_⟩
  · simp only [rowStep]; split
    · omega
    · exact h1
  · simp only [rowStep]; split
    · omega
    · exact h2
  · simp only [rowStep]; split
    · omega
    · exact h3
  · simp only [rowStep]; split
    · omega
    · exact h4
  · intro j
    simp only [rowStep]
    by_cases hjeq : j = j0
    · subst hjeq
      exact ⟨by simp only [if_pos rfl]; exact hkm,
        fun _ => by simp only [if_pos rfl]; exact ⟨hj0b, hj0h, hkj⟩⟩
    · simp only [if_neg hjeq]
      exact h5 j

theorem rowFold_inv (alo blo bhi m i : ℕ) {old : ℕ → ℕ}
    (hold : ∀ j, old j ≤ m ∧ (old j ≠ 0 → blo ≤ j ∧ old j ≤ j + 1 - blo))
    (hi : i = alo + m) :
    ∀ (js : List ℕ), (∀ j ∈ js, blo ≤ j ∧ j < bhi) →
    ∀ (st : FlmSt), RowInv alo blo bhi m i st →
      RowInv alo blo bhi m i (js.foldl (rowStep old i) st) := by
  intro js
  induction js with
  | nil => intro _ st hst; simpa using hst
  | cons j0 rest ih =>
    intro hjs st hst
    simp only [List.foldl_cons]
    obtain ⟨hj0b, hj0h⟩ := hjs j0 (List.mem_cons_self _ _)
    exact ih (fun j hj => hjs j (List.mem_cons_of_mem _ hj)) _
      (rowStep_pres hold hi hj0b hj0h hst)

theorem rowCols_mem {blo bhi i j : ℕ}
    (hj : j ∈ rowCols isjunk autojunk a b blo bhi i) : blo ≤ j ∧ j < bhi := by
  have := List.of_mem_filter hj
  simp only [Bool.and_eq_true, decide_eq_true_eq] at this
  exact this

theorem flmMain_inv (alo ahi blo bhi : ℕ) (hbb : blo ≤ bhi) :
    MainInv alo blo bhi (ahi - alo)
      (flmMain isjunk autojunk a b alo ahi blo bhi) := by
  have key : ∀ n, MainInv alo blo bhi n
      ((List.range' alo n).foldl
        (fun st i =>
          (rowCols isjunk autojunk a b blo bhi i).foldl
            (rowStep st.j2len i) { st with j2len := fun _ => 0 })
        ⟨fun _ => 0, alo, blo, 0⟩) := by
    intro n
    induction n with
    | zero =>
      simp only [List.range'_zero, List.foldl_nil]
      exact ⟨le_refl _, le_refl _, show alo + 0 ≤ alo + 0 by omega,
        show blo + 0 ≤ bhi by omega, fun j => ⟨Nat.zero_le _, by simp⟩⟩
    | succ n ih =>
      rw [List.range'_1_concat, List.foldl_append]
      simp only [List.foldl_cons, List.foldl_nil, one_mul]
      set st := (List.range' alo n).foldl
        (fun st i =>
          (rowCols isjunk autojunk a b blo bhi i).foldl
            (rowStep st.j2len i) { st with j2len := fun _ => 0 })
        (⟨fun _ => 0, alo, blo, 0⟩ : FlmSt) with hstdef
      obtain ⟨h1, h2, h3, h4, h5⟩ := ih
      have hrow := rowFold_inv alo blo bhi n (alo + n)
        (fun j => ⟨(h5 j).1, fun hz => ⟨((h5 j).2 hz).1, ((h5 j).2 hz).2.2⟩⟩) rfl
        (rowCols isjunk autojunk a b blo bhi (alo + n))
        (fun j hj => rowCols_mem isjunk autojunk a b hj)
        { st with j2len := fun _ => 0 }
        ⟨h1, h2, show st.besti + st.bestsize ≤ (alo + n) + 1 by omega, h4,
          fun j => ⟨Nat.zero_le _, by simp⟩⟩
      obtain ⟨g1, g2, g3, g4, g5⟩ := hrow
      exact ⟨g1, g2, by omega, g4, fun j =>
        ⟨(g5 j).1, fun hz => (g5 j).2 hz⟩⟩
  simpa only [flmMain] using key (ahi - alo)

theorem extBack_spec (junkPhase : Bool) (alo blo : ℕ) :
    ∀ fuel bi bj bs, bi ≤ fuel → alo ≤ bi → blo ≤ bj →
    alo ≤ (extBack isjunk a b junkPhase alo blo fuel bi bj bs).1 ∧
    blo ≤ (extBack isjunk a b junkPhase alo blo fuel bi bj bs).2.1 ∧
    (extBack isjunk a b junkPhase alo blo fuel bi bj bs).1 +
      (extBack isjunk a b junkPhase alo blo fuel bi bj bs).2.2 = bi + bs ∧
    (extBack isjunk a b junkPhase alo blo fuel bi bj bs).2.1 +
      (extBack isjunk a b junkPhase alo blo fuel bi bj bs).2.2 = bj + bs := by
  intro fuel
  induction fuel with
  | zero =>
    intro bi bj bs hf hbi hbj
    exact ⟨hbi, hbj, rfl, rfl⟩
  | succ fuel ih =>
    intro bi bj bs hf hbi hbj
    simp only [extBack]
    split
    · next h =>
      have := ih (bi - 1) (bj - 1) (bs + 1) (by omega) (by omega) (by omega)
      refine ⟨this.1, this.2.1, by omega, by omega⟩
    · exact ⟨hbi, hbj, rfl, rfl⟩

theorem extFwd_spec (junkPhase : Bool) (ahi bhi : ℕ) :
    ∀ fuel bi bj bs, bi + bs ≤ ahi → bj + bs ≤ bhi →
    bs ≤ extFwd isjunk a b junkPhase ahi bhi fuel bi bj bs ∧
    bi + extFwd isjunk a b junkPhase ahi bhi fuel bi bj bs ≤ ahi ∧
    bj + extFwd isjunk a b junkPhase ahi bhi fuel bi bj bs ≤ bhi := by
  intro fuel
  induction fuel with
  | zero =>
    intro bi bj bs hahi hbhi
    exact ⟨le_refl _, hahi, hbhi⟩
  | succ fuel ih =>
    intro bi bj bs hahi hbhi
    simp only [extFwd]
    split
    · next h =>
      have := ih bi bj (bs + 1) (by omega) (by omega)
      exact ⟨by omega, this.2.1, this.2.2⟩
    · exact ⟨le_refl _, hahi, hbhi⟩

/-- In-window bounds for the result of `find_longest_match`:
`alo <= i <= i+k <= ahi` and `blo <= j <= j+k <= bhi`. -/
theorem flm_bounds (alo ahi blo bhi : ℕ) (hab : alo ≤ ahi) (hbb : blo ≤ bhi) :
    alo ≤ (flm isjunk autojunk a b alo ahi blo bhi).1 ∧
    blo ≤ (flm isjunk autojunk a b alo ahi blo bhi).2.1 ∧
    (flm isjunk autojunk a b alo ahi blo bhi).1 +
      (flm isjunk autojunk a b alo ahi blo bhi).2.2 ≤ ahi ∧
    (flm isjunk autojunk a b alo ahi blo bhi).2.1 +
      (flm isjunk autojunk a b alo ahi blo bhi).2.2 ≤ bhi := by
  obtain ⟨h1, h2, h3, h4, _⟩ := flmMain_inv isjunk autojunk a b alo ahi blo bhi hbb
  set st := flmMain isjunk autojunk a b alo ahi blo bhi
  have hmain3 : st.besti + st.bestsize ≤ ahi := by omega
  have e1 := extBack_spec isjunk a b false alo blo st.besti st.besti st.bestj
    st.bestsize (le_refl _) h1 h2
  set r1 := extBack isjunk a b false alo blo st.besti st.besti st.bestj st.bestsize
  have s2 := extFwd_spec isjunk a b false ahi bhi ahi
    r1.1 r1.2.1 r1.2.2 (by omega) (by omega)
  set v2 := extFwd isjunk a b false ahi bhi ahi r1.1 r1.2.1 r1.2.2
  have e3 := extBack_spec isjunk a b true alo blo r1.1 r1.1 r1.2.1 v2
    (le_refl _) e1.1 e1.2.1
  set r3 := extBack isjunk a b true alo blo r1.1 r1.1 r1.2.1 v2
  have s4 := extFwd_spec isjunk a b true ahi bhi ahi
    r3.1 r3.2.1 r3.2.2 (by omega) (by omega)
  simp only [flm]
  exact ⟨e3.1, e3.2.1, s4.2.1, s4.2.2⟩

end SMBounds

section SMBlocks

variable {α : Type} [DecidableEq α] [Inhabited α]
variable (isjunk : α → Bool) (autojunk : Bool) (a b : List α)

/-- The recursive block collection of `SequenceMatcher.get_matching_blocks`:
find the longest match of the window, recurse into the sub-windows left and
right of it (CPython works through an explicit LIFO stack and sorts the
collected triples at the end; as the sub-windows are disjoint and ordered,
that equals this in-order recursion).  Each recursion strictly shrinks the
window (`flm_bounds` with `k ≠ 0`), so the structural `fuel` passed by
`getMatchingBlocks` — more than the total window size — never runs out. -/
def mbRec : ℕ → ℕ → ℕ → ℕ → ℕ → List (ℕ × ℕ × ℕ)
  | 0, _, _, _, _ => []
  | fuel + 1, alo, ahi, blo, bhi =>
    match flm isjunk autojunk a b alo ahi blo bhi with
    | (i, j, k) =>
      if k = 0 then []
      else
        (if alo < i ∧ blo < j then mbRec fuel alo i blo j else []) ++
        (i, j, k) ::
        (if i + k < ahi ∧ j + k < bhi then mbRec fuel (i + k) ahi (j + k) bhi
         else [])

/-- The adjacent-block collapsing loop of `get_matching_blocks` (state
`(i1, j1, k1)` starts at `(0, 0, 0)`; a block is appended only when `k1`
is nonzero). -/
def collapseGo : (ℕ × ℕ × ℕ) → List (ℕ × ℕ × ℕ) → List (ℕ × ℕ × ℕ)
  | cur, [] => if cur.2.2 ≠ 0 then [cur] else []
  | cur, (i2, j2, k2) :: rest =>
    if cur.1 + cur.2.2 = i2 ∧ cur.2.1 + cur.2.2 = j2 then
      collapseGo (cur.1, cur.2.1, cur.2.2 + k2) rest
    else
      (if cur.2.2 ≠ 0 then [cur] else []) ++ collapseGo (i2, j2, k2) rest

/-- `SequenceMatcher.get_matching_blocks()`: recursive collection, adjacent
collapsing, and the `(len(a), len(b), 0)` sentinel. -/
def getMatchingBlocks : List (ℕ × ℕ × ℕ) :=
  collapseGo (0, 0, 0)
    (mbRec isjunk autojunk a b (a.length + b.length + 1) 0 a.length 0 b.length) ++
  [(a.length, b.length, 0)]

end SMBlocks

/-- Opcode tags of `SequenceMatcher.get_opcodes()`. -/
inductive Tag | replace | delete | insert | equal
deriving DecidableEq

section SMOps

variable {α : Type} [DecidableEq α] [Inhabited α]
variable (isjunk : α → Bool) (autojunk : Bool) (a b : List α)

/-- The loop of `get_opcodes()`: walk the matching blocks with the cursor
`(i, j)`, emitting a replace/delete/insert opcode for the gap before each
block and an equal opcode for the block itself when nonempty. -/
def opcodesGo : ℕ → ℕ → List (ℕ × ℕ × ℕ) → List (Tag × ℕ × ℕ × ℕ × ℕ)
  | _, _, [] => []
  | i, j, (ai, bj, size) :: rest =>
    (if i < ai ∧ j < bj then [(Tag.replace, i, ai, j, bj)]
     else if i < ai then [(Tag.delete, i, ai, j, bj)]
     else if j < bj then [(Tag.insert, i, ai, j, bj)]
     else []) ++
    (if size ≠ 0 then [(Tag.equal, ai, ai + size, bj, bj + size)] else []) ++
    opcodesGo (ai + size) (bj + size) rest

/-- `SequenceMatcher.get_opcodes()`. -/
def getOpcodes : List (Tag × ℕ × ℕ × ℕ × ℕ) :=
  opcodesGo 0 0 (getMatchingBlocks isjunk autojunk a b)

/-- `sum(triple[-1] for triple in self.get_matching_blocks())`. -/
def matchesTotal : ℕ :=
  ((getMatchingBlocks isjunk autojunk a b).map (fun m => m.2.2)).sum

end SMOps

/-- A nonnegative ratio `2*M/T` as an exact unreduced fraction
`(numerator, denominator)`.  Python computes these as floats; the exact
rational order is used here (the two differ only when a comparison is
decided by the last ulp of a float quotient, which no reachable comparison
in this code is). -/
abbrev Ratio := ℕ × ℕ

/-- Strict order on ratio fractions by cross-multiplication (denominators are
always positive here). -/
def ratioLt (x y : Ratio) : Bool := x.1 * y.2 < y.1 * x.2

/-- `difflib._calculate_ratio`: `2.0*m/len` if `len` is nonzero else `1.0`. -/
def calcRatio (m len : ℕ) : Ratio :=
  if len ≠ 0 then (2 * m, len) else (1, 1)

section SMRatio

variable {α : Type} [DecidableEq α] [Inhabited α]
variable (isjunk : α → Bool) (autojunk : Bool) (a b : List α)

/-- `SequenceMatcher.ratio()`. -/
def ratio : Ratio :=
  calcRatio (matchesTotal isjunk autojunk a b) (a.length + b.length)

/-- The matches count of `SequenceMatcher.quick_ratio()`: the loop over `a`
with the `avail` dict (`none` models an absent key, whose value defaults to
`fullbcount.get(elt, 0)`, the count of `elt` in `b`). -/
def quickRatioCount : ℕ :=
  (a.foldl
    (fun (acc : (α → Option ℤ) × ℕ) elt =>
      ((fun x => if x = elt then
          some ((match acc.1 elt with
                 | some v => v
                 | none => (b.count elt : ℤ)) - 1)
        else acc.1 x),
        if 0 < (match acc.1 elt with
                | some v => v
                | none => (b.count elt : ℤ)) then acc.2 + 1 else acc.2))
    ((fun _ => none), 0)).2

/-- `SequenceMatcher.quick_ratio()` (junk plays no role in it). -/
def quickRatio : Ratio := calcRatio (quickRatioCount a b) (a.length + b.length)

/-- `SequenceMatcher.real_quick_ratio()`. -/
def realQuickRatio : Ratio :=
  calcRatio (min a.length b.length) (a.length + b.length)

end SMRatio

end Difflib

/-!
## `difflib.Differ` with `linejunk=None`, `charjunk=IS_CHARACTER_JUNK`

This is exactly the configuration `difflib.ndiff` uses, which is what
`src/diff.py` calls.  Lines are `List Char`; the line-level `SequenceMatcher`
has no junk function, the character-level one treats blanks and tabs as junk.
Both have `autojunk=True` (the default).
-/
namespace NDiff

/-- One line of text (a Python string). -/
abbrev Line := List Char

/-- `difflib.IS_CHARACTER_JUNK`: blank or tab. -/
def charJunk (c : Char) : Bool := c = ' ' ∨ c = '\t'

/-- The line-level matcher's junk function (`linejunk=None`). -/
def noJunk : Line → Bool := fun _ => false

/-- Character-level `ratio()` as used by `_fancy_replace`'s cruncher. -/
def chRatio (x y : Line) : Difflib.Ratio := Difflib.ratio charJunk true x y

/-- Character-level `quick_ratio()`. -/
def chQuickRatio (x y : Line) : Difflib.Ratio := Difflib.quickRatio x y

/-- Character-level `real_quick_ratio()`. -/
def chRealQuickRatio (x y : Line) : Difflib.Ratio := Difflib.realQuickRatio x y

/-- Character-level `get_opcodes()`. -/
def chOpcodes (x y : Line) : List (Difflib.Tag × ℕ × ℕ × ℕ × ℕ) :=
  Difflib.getOpcodes charJunk true x y

/-- Line-level `get_opcodes()` (the cruncher of `Differ.compare`). -/
def lineOpcodes (a b : List Line) : List (Difflib.Tag × ℕ × ℕ × ℕ × ℕ) :=
  Difflib.getOpcodes noJunk true a b

/-- `Differ._dump(tag, x, lo, hi)`: the lines `'%s %s' % (tag, x[i])`. -/
def dump (tag : Char) (x : List Line) (lo hi : ℕ) : List Line :=
  (List.range' lo (hi - lo)).map (fun i => tag :: ' ' :: x.getD i [])

/-- `Differ._plain_replace`: dump the shorter block first. -/
def plainReplace (a : List Line) (alo ahi : ℕ) (b : List Line) (blo bhi : ℕ) :
    List Line :=
  if bhi - blo < ahi - alo then dump '+' b blo bhi ++ dump '-' a alo ahi
  else dump '-' a alo ahi ++ dump '+' b blo bhi

/-- `difflib._keep_original_ws`. -/
def keepOriginalWs (s tags : List Char) : List Char :=
  List.zipWith (fun c tc => if tc = ' ' ∧ PyStr.pyIsSpace c then c else tc) s tags

/-- `Differ._qformat`: the `'- '`/`'? '`/`'+ '`/`'? '` quad (the `'? '` hint
lines get an explicit trailing newline; the input lines here carry none,
since `diff.py` splits without `keepends`). -/
def qformat (aline bline atags btags : List Char) : List Line :=
  ("- ".data ++ aline) ::
  ((if PyStr.pyRstrip (keepOriginalWs aline atags) ≠ [] then
      ["? ".data ++ PyStr.pyRstrip (keepOriginalWs aline atags) ++ ['\n']]
    else []) ++
   ("+ ".data ++ bline) ::
   (if PyStr.pyRstrip (keepOriginalWs bline btags) ≠ [] then
      ["? ".data ++ PyStr.pyRstrip (keepOriginalWs bline btags) ++ ['\n']]
    else []))

/-- The `atags`/`btags` accumulation over `cruncher.get_opcodes()` in
`_fancy_replace`. -/
def intralineTags (aelt belt : Line) : List Char × List Char :=
  (chOpcodes aelt belt).foldl
    (fun (t : List Char × List Char) op =>
      match op with
      | (Difflib.Tag.replace, i1, i2, j1, j2) =>
        (t.1 ++ List.replicate (i2 - i1) '^', t.2 ++ List.replicate (j2 - j1) '^')
      | (Difflib.Tag.delete, i1, i2, _, _) =>
        (t.1 ++ List.replicate (i2 - i1) '-', t.2)
      | (Difflib.Tag.insert, _, _, j1, j2) =>
        (t.1, t.2 ++ List.replicate (j2 - j1) '+')
      | (Difflib.Tag.equal, i1, i2, j1, j2) =>
        (t.1 ++ List.replicate (i2 - i1) ' ', t.2 ++ List.replicate (j2 - j1) ' '))
    ([], [])

/-- The double search loop of `_fancy_replace` (outer `j`, inner `i`): state
`(best_ratio, best pair, first identical pair)`, starting `(0.74, None, None)`.
Identical pairs only record `eqi/eqj` on first sight; non-identical pairs
update the best when all three ratios beat `best_ratio`. -/
def fancySearch (a b : List Line) (alo ahi blo bhi : ℕ) :
    Difflib.Ratio × Option (ℕ × ℕ) × Option (ℕ × ℕ) :=
  (List.range' blo (bhi - blo)).foldl
    (fun st j =>
      (List.range' alo (ahi - alo)).foldl
        (fun st i =>
          if a.getD i [] = b.getD j [] then
            (st.1, st.2.1, if st.2.2 = none then some (i, j) else st.2.2)
          else if Difflib.ratioLt st.1 (chRealQuickRatio (a.getD i []) (b.getD j [])) ∧
              Difflib.ratioLt st.1 (chQuickRatio (a.getD i []) (b.getD j [])) ∧
              Difflib.ratioLt st.1 (chRatio (a.getD i []) (b.getD j [])) then
            (chRatio (a.getD i []) (b.getD j []), some (i, j), st.2.2)
          else st)
        st)
    ((74, 100), none, none)

theorem fancySearch_inv (a b : List Line) (alo ahi blo bhi : ℕ) :
    (∀ i j, (fancySearch a b alo ahi blo bhi).2.1 = some (i, j) →
      alo ≤ i ∧ i < ahi ∧ blo ≤ j ∧ j < bhi) ∧
    (∀ i j, (fancySearch a b alo ahi blo bhi).2.2 = some (i, j) →
      alo ≤ i ∧ i < ahi ∧ blo ≤ j ∧ j < bhi) ∧
    ((fancySearch a b alo ahi blo bhi).2.1 = none →
      (fancySearch a b alo ahi blo bhi).1 = (74, 100)) := by
  have inner : ∀ (j : ℕ), blo ≤ j → j < bhi →
      ∀ (l : List ℕ), (∀ x ∈ l, alo ≤ x ∧ x < ahi) →
      ∀ (st : Difflib.Ratio × Option (ℕ × ℕ) × Option (ℕ × ℕ)),
      ((∀ i' j', st.2.1 = some (i', j') → alo ≤ i' ∧ i' < ahi ∧ blo ≤ j' ∧ j' < bhi) ∧
       (∀ i' j', st.2.2 = some (i', j') → alo ≤ i' ∧ i' < ahi ∧ blo ≤ j' ∧ j' < bhi) ∧
       (st.2.1 = none → st.1 = (74, 100))) →
      (let r := l.foldl
        (fun st i =>
          if a.getD i [] = b.getD j [] then
            (st.1, st.2.1, if st.2.2 = none then some (i, j) else st.2.2)
          else if Difflib.ratioLt st.1 (chRealQuickRatio (a.getD i []) (b.getD j [])) ∧
              Difflib.ratioLt st.1 (chQuickRatio (a.getD i []) (b.getD j [])) ∧
              Difflib.ratioLt st.1 (chRatio (a.getD i []) (b.getD j [])) then
            (chRatio (a.getD i []) (b.getD j []), some (i, j), st.2.2)
          else st) st
       (∀ i' j', r.2.1 = some (i', j') → alo ≤ i' ∧ i' < ahi ∧ blo ≤ j' ∧ j' < bhi) ∧
       (∀ i' j', r.2.2 = some (i', j') → alo ≤ i' ∧ i' < ahi ∧ blo ≤ j' ∧ j' < bhi) ∧
       (r.2.1 = none → r.1 = (74, 100))) := by
    intro j hjb hjh l
    induction l with
    | nil => intro _ st hst; simpa using hst
    | cons x rest ih =>
      intro hl st hst
      simp only [List.foldl_cons]
      refine ih (fun y hy => hl y (List.mem_cons_of_mem _ hy)) _ ?_
      obtain ⟨hxa, hxh⟩ := hl x (List.mem_cons_self _ _)
      obtain ⟨h1, h2, h3⟩ := hst
      split
      · refine ⟨h1, ?_, h3⟩
        intro i' j'
        split
        · intro hsome
          have hsome' : some (x, j) = some (i', j') := hsome
          simp only [Option.some.injEq, Prod.mk.injEq] at hsome'
          obtain ⟨rfl, rfl⟩ := hsome'
          exact ⟨hxa, hxh, hjb, hjh⟩
        · exact h2 i' j'
      · split
        · refine ⟨?_, h2, ?_⟩
          · intro i' j' hsome
            have hsome' : some (x, j) = some (i', j') := hsome
            simp only [Option.some.injEq, Prod.mk.injEq] at hsome'
            obtain ⟨rfl, rfl⟩ := hsome'
            exact ⟨hxa, hxh, hjb, hjh⟩
          · intro hnone; exact absurd hnone (by simp)
        · exact ⟨h1, h2, h3⟩
  have outer : ∀ (lj : List ℕ), (∀ y ∈ lj, blo ≤ y ∧ y < bhi) →
      ∀ (st : Difflib.Ratio × Option (ℕ × ℕ) × Option (ℕ × ℕ)),
      ((∀ i' j', st.2.1 = some (i', j') → alo ≤ i' ∧ i' < ahi ∧ blo ≤ j' ∧ j' < bhi) ∧
       (∀ i' j', st.2.2 = some (i', j') → alo ≤ i' ∧ i' < ahi ∧ blo ≤ j' ∧ j' < bhi) ∧
       (st.2.1 = none → st.1 = (74, 100))) →
      (let r := lj.foldl
        (fun st j =>
          (List.range' alo (ahi - alo)).foldl
            (fun st i =>
              if a.getD i [] = b.getD j [] then
                (st.1, st.2.1, if st.2.2 = none then some (i, j) else st.2.2)
              else if Difflib.ratioLt st.1 (chRealQuickRatio (a.getD i []) (b.getD j [])) ∧
                  Difflib.ratioLt st.1 (chQuickRatio (a.getD i []) (b.getD j [])) ∧
                  Difflib.ratioLt st.1 (chRatio (a.getD i []) (b.getD j [])) then
                (chRatio (a.getD i []) (b.getD j []), some (i, j), st.2.2)
              else st) st) st
       (∀ i' j', r.2.1 = some (i', j') → alo ≤ i' ∧ i' < ahi ∧ blo ≤ j' ∧ j' < bhi) ∧
       (∀ i' j', r.2.2 = some (i', j') → alo ≤ i' ∧ i' < ahi ∧ blo ≤ j' ∧ j' < bhi) ∧
       (r.2.1 = none → r.1 = (74, 100))) := by
    intro lj
    induction lj with
    | nil => intro _ st hst; simpa using hst
    | cons y rest ih =>
      intro hlj st hst
      simp only [List.foldl_cons]
      obtain ⟨hyb, hyh⟩ := hlj y (List.mem_cons_self _ _)
      refine ih (fun z hz => hlj z (List.mem_cons_of_mem _ hz)) _ ?_
      exact inner y hyb hyh (List.range' alo (ahi - alo))
        (fun x hx => by
          rw [List.mem_range'_1] at hx
          omega) st hst
  have := outer (List.range' blo (bhi - blo))
    (fun y hy => by
      rw [List.mem_range'_1] at hy
      omega)
    ((74, 100), none, none)
    ⟨by simp, by simp, fun _ => rfl⟩
  simpa only [fancySearch] using this

mutual

/-- `Differ._fancy_replace`: search for the best similar pair; below the
cutoff (`0.75`) synch on the first identical pair if any, else plain replace;
otherwise synch on the best pair with intraline `'? '` marking.  The `none`
case of the second match is unreachable (`fancySearch_inv`: the ratio stays
`0.74 < 0.75` while no best pair is recorded).  The recursion strictly
shrinks the window through `fancyHelper`, so the structural `fuel` passed by
`compare` never runs out. -/
def fancyReplace : ℕ → List Line → List Line → ℕ → ℕ → ℕ → ℕ → List Line
  | 0, _, _, _, _, _, _ => []
  | fuel + 1, a, b, alo, ahi, blo, bhi =>
    if Difflib.ratioLt (fancySearch a b alo ahi blo bhi).1 (75, 100) then
      match (fancySearch a b alo ahi blo bhi).2.2 with
      | none => plainReplace a alo ahi b blo bhi
      | some (ei, ej) =>
        fancyHelper fuel a b alo ei blo ej ++
        ("  ".data ++ a.getD ei []) ::
        fancyHelper fuel a b (ei + 1) ahi (ej + 1) bhi
    else
      match (fancySearch a b alo ahi blo bhi).2.1 with
      | none => []
      | some (bi, bj) =>
        fancyHelper fuel a b alo bi blo bj ++
        qformat (a.getD bi []) (b.getD bj [])
          (intralineTags (a.getD bi []) (b.getD bj [])).1
          (intralineTags (a.getD bi []) (b.getD bj [])).2 ++
        fancyHelper fuel a b (bi + 1) ahi (bj + 1) bhi
termination_by structural fuel => fuel

/-- `Differ._fancy_helper`: dispatch on emptiness of the two ranges. -/
def fancyHelper : ℕ → List Line → List Line → ℕ → ℕ → ℕ → ℕ → List Line
  | 0, _, _, _, _, _, _ => []
  | fuel + 1, a, b, alo, ahi, blo, bhi =>
    if alo < ahi then
      if blo < bhi then fancyReplace fuel a b alo ahi blo bhi
      else dump '-' a alo ahi
    else if blo < bhi then dump '+' b blo bhi
    else []
termination_by structural fuel => fuel

end

/-- Fuel that the `fancyReplace`/`fancyHelper` recursion can never exhaust:
each pair of steps strictly shrinks the window, whose size is at most
`len(a) + len(b)`. -/
def fancyFuel (a b : List Line) : ℕ := 2 * (a.length + b.length) + 2

/-- The lines `Differ.compare`'s loop body emits for one line-level opcode. -/
def emitOp (a b : List Line) (op : Difflib.Tag × ℕ × ℕ × ℕ × ℕ) : List Line :=
  match op with
  | (Difflib.Tag.replace, i1, i2, j1, j2) => fancyReplace (fancyFuel a b) a b i1 i2 j1 j2
  | (Difflib.Tag.delete, i1, i2, _, _) => dump '-' a i1 i2
  | (Difflib.Tag.insert, _, _, j1, j2) => dump '+' b j1 j2
  | (Difflib.Tag.equal, i1, i2, _, _) => dump ' ' a i1 i2

/-- `Differ.compare(a, b)`: walk the line-level opcodes. -/
def compare (a b : List Line) : List Line :=
  (lineOpcodes a b).foldl (fun acc op => acc ++ emitOp a b op) []

end NDiff

namespace DiffPy

/-- `src/diff.py`'s `diff(a, b)`:
`list(difflib.ndiff(a.splitlines(), b.splitlines()))`. -/
def diff (a b : List Char) : List (List Char) :=
  NDiff.compare (PyStr.splitlines a) (PyStr.splitlines b)

end DiffPy

namespace DiffPy

/-- `_format_colourful`: red for `'-'`-prefixed rows, green for `'+'`-prefixed
rows, anything else unchanged. -/
def formatColourful (l : List Char) : List Char :=
  if l.take 1 = ['-'] then
    "\x1b[38;2;255;0;0m".data ++ l ++ "\x1b[38;2;255;255;255m".data
  else if l.take 1 = ['+'] then
    "\x1b[38;2;0;255;0m".data ++ l ++ "\x1b[38;2;255;255;255m".data
  else l

/-- Insert an integer into an ascending duplicate-free list, keeping it
ascending and duplicate-free (models Python set insertion + final `sorted`). -/
def insertSorted (x : ℤ) : List ℤ → List ℤ
  | [] => [x]
  | y :: rest =>
    if x < y then x :: y :: rest
    else if x = y then y :: rest
    else y :: insertSorted x rest

/-- `range(lo, hi)` over integers. -/
def rangeInt (lo hi : ℤ) : List ℤ :=
  (List.range (hi - lo).toNat).map (fun (t : ℕ) => lo + (t : ℤ))

/-- The `relevant_lines` set of `pretty_print`, as an ascending duplicate-free
list: for every index `i` whose row does not start with two blanks, the
indices `range(i - context_lines, i + context_lines)` (note the asymmetric
upper end: the source uses `i + context_lines`, exclusive). -/
def relevantSorted (d : List (List Char)) (c : ℕ) : List ℤ :=
  (List.range d.length).foldl
    (fun acc i =>
      if (d.getD i []).take 2 = "  ".data then acc
      else (rangeInt ((i : ℤ) - (c : ℤ)) ((i : ℤ) + (c : ℤ))).foldl
        (fun ac j => insertSorted j ac) acc)
    []

/-- One printed row of `pretty_print`: the `"..."` gap marker, or the
coloured row for script index `i`. -/
inductive DisplayRow
  | gap
  | line (i : ℤ) (s : List Char)
deriving DecidableEq

/-- The `"..."` marker rows printed before index `i`: one when a previous line
was printed and `i != last_i + 1`, none otherwise. -/
def gapRows (last : Option ℤ) (i : ℤ) : List DisplayRow :=
  match last with
  | some p => if i ≠ p + 1 then [DisplayRow.gap] else []
  | none => []

/-- The printing loop of `pretty_print`: walk the sorted relevant indices,
skip out-of-bounds ones (they do not touch `last_i`), emit `"..."` whenever
the emitted index is not exactly `last_i + 1`, then the coloured row. -/
def emitRows (d : List (List Char)) : Option ℤ → List ℤ → List DisplayRow
  | _, [] => []
  | last, i :: rest =>
    if i < 0 ∨ (d.length : ℤ) ≤ i then emitRows d last rest
    else
      gapRows last i ++
      DisplayRow.line i (formatColourful (d.getD i.toNat [])) ::
      emitRows d (some i) rest

/-- `src/diff.py`'s `pretty_print(diff, context_lines)` as the list of rows it
prints (the default `context_lines` in the source is 2). -/
def prettyPrint (d : List (List Char)) (c : ℕ) : List DisplayRow :=
  emitRows d none (relevantSorted d c)

end DiffPy

/-!
## `src/deploy.py`

`TemplateFile` is embedded over an explicit model of its environment: `raw` is
the text the Jinja collaborator returns for `template.render()` (an `Except`
to model a raised render error, e.g. `StrictUndefined`), and `dest` the
contents of `output_path` (`none` when the file does not exist, as
`read_existing` maps `FileNotFoundError` to `None`).
-/
namespace DeployPy

instance {ε α : Type} [DecidableEq ε] [DecidableEq α] : DecidableEq (Except ε α) :=
  fun x y =>
    match x, y with
    | Except.error a, Except.error b =>
      if h : a = b then Decidable.isTrue (congrArg Except.error h)
      else Decidable.isFalse (fun hh => h (by cases hh; rfl))
    | Except.ok a, Except.ok b =>
      if h : a = b then Decidable.isTrue (congrArg Except.ok h)
      else Decidable.isFalse (fun hh => h (by cases hh; rfl))
    | Except.error _, Except.ok _ => Decidable.isFalse (fun hh => Except.noConfusion hh)
    | Except.ok _, Except.error _ => Decidable.isFalse (fun hh => Except.noConfusion hh)

/-- The state of one template under review. -/
structure TemplateFile where
  raw : Except Unit (List Char)
  dest : Option (List Char)
deriving DecidableEq

/-- `TemplateFile.render()`: the collaborator's output plus exactly one
trailing newline (the source comments that Jinja strips it). -/
def render (raw : List Char) : List Char := raw ++ ['\n']

/-- `TemplateFile.render()` with the render error propagated. -/
def renderE (tf : TemplateFile) : Except Unit (List Char) :=
  match tf.raw with
  | .error e => .error e
  | .ok r => .ok (render r)

/-- `TemplateFile.read_existing()`. -/
def read_existing (tf : TemplateFile) : Option (List Char) := tf.dest

/-- `TemplateFile.has_diff()` for a successful render: `False` when the
stripped render is empty and the destination does not exist, otherwise
`read_existing() != render()` (`None` differs from every string). -/
def has_diff (raw : List Char) (dest : Option (List Char)) : Bool :=
  if PyStr.pyStrip (render raw) = [] ∧ dest.isSome = false then false
  else decide (dest ≠ some (render raw))

/-- `TemplateFile.write()`: `output_path.write_text(self.render())`, modelled
as the destination contents becoming exactly the rendered text. -/
def write (raw : List Char) (tf : TemplateFile) : TemplateFile :=
  { tf with dest := some (render raw) }

/-- Observable events of the review loop. -/
inductive Ev
  | renderCall
  | printedDiff
  | prompted
  | edited
  | wrote
  | cleared
deriving DecidableEq

/-- One keypress of the interactive loop; `o` carries the answer to the
`click.confirm` that only an `o` press triggers. -/
inductive Cmd
  | e
  | r
  | s
  | o (confirm : Bool)
  | q
  | other (c : Char)

/-- How processing of one template ends: no more diff or skipped or written
(`resolved`), `q` pressed (`quitAll`), input exhausted while the loop wants a
key (`blocked`), or gated out by the install filter (`skipped`). -/
inductive Outcome
  | resolved
  | quitAll
  | blocked
  | skipped
deriving DecidableEq

/-- `has_diff()` with events: it calls `render()` once for the emptiness test
and, when that does not decide, a second time for the comparison (lines 74 and
76 of the source); a render error propagates out uncaught. -/
def hasDiffE (tf : TemplateFile) : Except Unit (Bool × List Ev) :=
  match renderE tf with
  | .error e => .error e
  | .ok r =>
    if PyStr.pyStrip r = [] ∧ tf.dest.isSome = false then .ok (false, [Ev.renderCall])
    else
      match renderE tf with
      | .error e => .error e
      | .ok r2 => .ok (decide (tf.dest ≠ some r2), [Ev.renderCall, Ev.renderCall])

/-- The `while True` review loop of `main` for one template, from the loop
top: recompute `has_diff` (re-rendering), break when clean, print the diff
(rendering again), prompt, and dispatch the keypress.  `e` applies the
external editor effect `editFx` and falls through to the loop top; `r`,
a declined `o` confirmation and any unrecognised key also fall through to the
loop top; `s` breaks; a confirmed `o` writes and breaks; `q` returns from
`main`. -/
def reviewLoop (editFx : TemplateFile → TemplateFile) (diffOnly : Bool) :
    TemplateFile → List Cmd → Except Unit (TemplateFile × List Ev × Outcome)
  | tf, cmds =>
    match hasDiffE tf with
    | .error e => .error e
    | .ok (hd, ev1) =>
      if hd = false then .ok (tf, ev1, Outcome.resolved)
      else
        match renderE tf with
        | .error e => .error e
        | .ok _ =>
          if diffOnly then
            .ok (tf, ev1 ++ [Ev.renderCall, Ev.printedDiff], Outcome.resolved)
          else
            match cmds with
            | [] => .ok (tf, ev1 ++ [Ev.renderCall, Ev.printedDiff, Ev.prompted],
                Outcome.blocked)
            | cmd :: rest =>
              match cmd with
              | Cmd.e =>
                match reviewLoop editFx diffOnly (editFx tf) rest with
                | .error e => .error e
                | .ok (tf', ev', o) =>
                  .ok (tf', ev1 ++ [Ev.renderCall, Ev.printedDiff, Ev.prompted,
                    Ev.edited] ++ ev', o)
              | Cmd.r =>
                match reviewLoop editFx diffOnly tf rest with
                | .error e => .error e
                | .ok (tf', ev', o) =>
                  .ok (tf', ev1 ++ [Ev.renderCall, Ev.printedDiff, Ev.prompted] ++ ev', o)
              | Cmd.s =>
                .ok (tf, ev1 ++ [Ev.renderCall, Ev.printedDiff, Ev.prompted],
                  Outcome.resolved)
              | Cmd.o true =>
                match renderE tf with
                | .error e => .error e
                | .ok r =>
                  .ok ({ tf with dest := some r },
                    ev1 ++ [Ev.renderCall, Ev.printedDiff, Ev.prompted,
                      Ev.renderCall, Ev.wrote], Outcome.resolved)
              | Cmd.o false =>
                match reviewLoop editFx diffOnly tf rest with
                | .error e => .error e
                | .ok (tf', ev', o) =>
                  .ok (tf', ev1 ++ [Ev.renderCall, Ev.printedDiff, Ev.prompted] ++ ev', o)
              | Cmd.q =>
                .ok (tf, ev1 ++ [Ev.renderCall, Ev.printedDiff, Ev.prompted],
                  Outcome.quitAll)
              | Cmd.other _ =>
                match reviewLoop editFx diffOnly tf rest with
                | .error e => .error e
                | .ok (tf', ev', o) =>
                  .ok (tf', ev1 ++ [Ev.renderCall, Ev.printedDiff, Ev.prompted] ++ ev', o)

/-- The per-template body of `main`'s `for` loop: the `install_if` gate (lines
155-158) runs before `click.clear()` and before the review loop — a group
whose expression string is non-empty and evaluates falsy is skipped with no
rendering at all.  `get` returning `None` (no entry) or the empty string are
falsy, so such templates proceed.  `evalExpr` is the truthiness of the
compiled Jinja expression, a black box. -/
def processTemplate (installIf : String → Option String) (evalExpr : String → Bool)
    (group : String) (editFx : TemplateFile → TemplateFile) (diffOnly : Bool)
    (tf : TemplateFile) (cmds : List Cmd) :
    Except Unit (TemplateFile × List Ev × Outcome) :=
  let go : Except Unit (TemplateFile × List Ev × Outcome) :=
    match reviewLoop editFx diffOnly tf cmds with
    | .error e => .error e
    | .ok (tf', ev, o) => .ok (tf', Ev.cleared :: ev, o)
  match installIf group with
  | some expr =>
    if expr ≠ "" then
      if evalExpr expr then go else .ok (tf, [], Outcome.skipped)
    else go
  | none => go

end DeployPy

/-!
## The consolidated review state machine of the spec (§4.4)

Modelled from the spec: the repository's second evolution of the review loop
(the machine-config variant whose registry is `src/machine_configs.py` and
which adds the `OverwriteSource` and `ClearScreen` decisions) is not under
`src/`; §3 "Decision" and §4.4 describe the consolidated machine, embedded
here from those words.
-/
namespace SpecLoop

/-- Modelled from the spec: the Decision set of §3 —
`{Edit, Refresh, Skip, OverwriteDestination, OverwriteSource, ClearScreen,
Quit}`, the two destructive ones carrying their secondary confirmation. -/
inductive Decision
  | edit
  | refresh
  | skip
  | overwriteDest (confirm : Bool)
  | overwriteSrc (confirm : Bool)
  | clearScreen
  | quit

/-- One reconciliation item: template source contents and destination
contents (`none`: not installed). -/
structure Item where
  src : List Char
  dest : Option (List Char)
deriving DecidableEq

/-- How the item leaves the machine. -/
inductive SpecOutcome
  | resolved
  | quitAll
  | blocked
deriving DecidableEq

/-- Modelled from the spec (§4.3): the render collaborator applied to the
template source, with exactly one trailing terminator restored. -/
def rendered (renderFn : List Char → List Char) (it : Item) : List Char :=
  renderFn it.src ++ ['\n']

/-- Modelled from the spec (§4.3): the `has_diff` rule — false when the
trimmed render is empty and nothing exists yet, else compare. -/
def hasDiffS (renderFn : List Char → List Char) (it : Item) : Bool :=
  if PyStr.pyStrip (rendered renderFn it) = [] ∧ it.dest.isSome = false then false
  else decide (it.dest ≠ some (rendered renderFn it))

/-- Modelled from the spec (§4.4): the per-item machine.  `atTop = true` is
step 1 (compute `has_diff`, resolve when clean, else show the diff and fall
to the prompt); `atTop = false` is step 2 (consume one Decision).  Declined
confirmations and `ClearScreen` return to the prompt without re-rendering
(steps 6-8); `Edit`/`Refresh` loop back to step 1.  Each step consumes fuel;
`specReview` passes more fuel than the decision list can consume. -/
def specMachine (renderFn : List Char → List Char) (editFx : Item → Item) :
    ℕ → Bool → Item → List Decision → Item × SpecOutcome
  | 0, _, it, _ => (it, SpecOutcome.blocked)
  | fuel + 1, true, it, ds =>
    if hasDiffS renderFn it = false then (it, SpecOutcome.resolved)
    else specMachine renderFn editFx fuel false it ds
  | fuel + 1, false, it, ds =>
    match ds with
    | [] => (it, SpecOutcome.blocked)
    | d :: rest =>
      match d with
      | Decision.edit => specMachine renderFn editFx fuel true (editFx it) rest
      | Decision.refresh => specMachine renderFn editFx fuel true it rest
      | Decision.skip => (it, SpecOutcome.resolved)
      | Decision.overwriteDest true =>
        ({ it with dest := some (rendered renderFn it) }, SpecOutcome.resolved)
      | Decision.overwriteDest false => specMachine renderFn editFx fuel false it rest
      | Decision.overwriteSrc true =>
        ({ it with src := it.dest.getD it.src }, SpecOutcome.resolved)
      | Decision.overwriteSrc false => specMachine renderFn editFx fuel false it rest
      | Decision.clearScreen => specMachine renderFn editFx fuel false it rest
      | Decision.quit => (it, SpecOutcome.quitAll)

/-- Modelled from the spec (§4.4): run the machine from step 1 with ample
fuel. -/
def specReview (renderFn : List Char → List Char) (editFx : Item → Item)
    (it : Item) (ds : List Decision) : Item × SpecOutcome :=
  specMachine renderFn editFx (2 * ds.length + 2) true it ds

end SpecLoop


/-!
## Reconstruction and identity machinery for `difflib`
-/

namespace Difflib

section SMMatch

variable {α : Type} [DecidableEq α] [Inhabited α]
variable (isjunk : α → Bool) (autojunk : Bool) (a b : List α)

/-- The `k` elements of `a` starting at `i` equal the `k` elements of `b`
starting at `j` (reading by `getD`, as every access in the matcher does). -/
def MatchedAt (i j k : ℕ) : Prop :=
  ∀ t, t < k → a.getD (i + t) default = b.getD (j + t) default

theorem idxsOf_val {b : List α} {x : α} {j : ℕ} (hj : j ∈ idxsOf b x) :
    b.getD j default = x := by
  have := List.of_mem_filter hj
  exact of_decide_eq_true this

theorem b2j_eq (x : α) :
    b2j isjunk autojunk b x =
      if isjunk x then []
      else if autojunk ∧ 200 ≤ b.length ∧
          b.length / 100 + 1 < (idxsOf b x).length then []
      else idxsOf b x := rfl

theorem b2j_val {x : α} {j : ℕ} (hj : j ∈ b2j isjunk autojunk b x) :
    b.getD j default = x := by
  rw [b2j_eq] at hj
  split at hj
  · exact absurd hj (List.not_mem_nil j)
  · split at hj
    · exact absurd hj (List.not_mem_nil j)
    · exact idxsOf_val hj

theorem rowCols_val {blo bhi i j : ℕ}
    (hj : j ∈ rowCols isjunk autojunk a b blo bhi i) :
    b.getD j default = a.getD i default :=
  b2j_val isjunk autojunk b (List.mem_of_mem_filter hj)

/-- Invariant of a `j2len` dict whose chains end at row `i - 1`: every
nonzero entry records a genuine match ending at `(i - 1, j)`. -/
def DictM (i : ℕ) (f : ℕ → ℕ) : Prop :=
  ∀ j, f j ≠ 0 → f j ≤ i ∧ f j ≤ j + 1 ∧
    MatchedAt a b (i - f j) (j + 1 - f j) (f j)

/-- Within-row match invariant at row `i`: the best block is a genuine match
and the row's new dict records matches ending at `(i, ·)`. -/
def RowInvM (i : ℕ) (st : FlmSt) : Prop :=
  MatchedAt a b st.besti st.bestj st.bestsize ∧ DictM a b (i + 1) st.j2len

theorem kval_matched {i : ℕ} {old : ℕ → ℕ} (hold : DictM a b i old)
    {j : ℕ} (hbij : b.getD j default = a.getD i default) :
    kval old j ≤ i + 1 ∧ kval old j ≤ j + 1 ∧
      MatchedAt a b (i + 1 - kval old j) (j + 1 - kval old j) (kval old j) := by
  cases j with
  | zero =>
    refine ⟨by simp [kval], by simp [kval], ?_⟩
    intro t ht
    have ht0 : t = 0 := by simpa [kval] using ht
    subst ht0
    simpa [kval] using hbij.symm
  | succ j' =>
    by_cases hz : old j' = 0
    · refine ⟨by simp [kval, hz], by simp [kval, hz], ?_⟩
      intro t ht
      have ht0 : t = 0 := by simp [kval, hz] at ht; omega
      subst ht0
      have hk : kval old (j' + 1) = 1 := by simp [kval, hz]
      rw [hk]
      have e1 : i + 1 - 1 + 0 = i := by omega
      have e2 : j' + 1 + 1 - 1 + 0 = j' + 1 := by omega
      rw [e1, e2]
      exact hbij.symm
    · obtain ⟨hk1, hk2, hk3⟩ := hold j' hz
      have hkv : kval old (j' + 1) = old j' + 1 := rfl
      refine ⟨by omega, by omega, ?_⟩
      intro t ht
      rw [hkv] at ht ⊢
      by_cases htk : t < old j'
      · have e1 : i + 1 - (old j' + 1) + t = i - old j' + t := by omega
        have e2 : j' + 1 + 1 - (old j' + 1) + t = j' + 1 - old j' + t := by omega
        rw [e1, e2]
        exact hk3 t htk
      · have ht' : t = old j' := by omega
        subst ht'
        have e1 : i + 1 - (old j' + 1) + old j' = i := by omega
        have e2 : j' + 1 + 1 - (old j' + 1) + old j' = j' + 1 := by omega
        rw [e1, e2]
        exact hbij.symm

theorem rowStep_match {i : ℕ} {old : ℕ → ℕ} (hold : DictM a b i old)
    {j0 : ℕ} (hbij : b.getD j0 default = a.getD i default)
    {st : FlmSt} (hst : RowInvM a b i st) :
    RowInvM a b i (rowStep old i st j0) := by
  obtain ⟨hbest, hdict⟩ := hst
  obtain ⟨hk1, hk2, hk3⟩ := kval_matched a b hold hbij
  constructor
  · simp only [rowStep]
    split
    · exact hk3
    · exact hbest
  · intro j hj
    simp only [rowStep] at hj ⊢
    by_cases hjeq : j = j0
    · subst hjeq
      simp only [if_pos rfl] at hj ⊢
      exact ⟨hk1, hk2, hk3⟩
    · simp only [if_neg hjeq] at hj ⊢
      exact hdict j hj

theorem rowFold_match {i : ℕ} {old : ℕ → ℕ} (hold : DictM a b i old) :
    ∀ (js : List ℕ), (∀ j ∈ js, b.getD j default = a.getD i default) →
    ∀ (st : FlmSt), RowInvM a b i st →
      RowInvM a b i (js.foldl (rowStep old i) st) := by
  intro js
  induction js with
  | nil => intro _ st hst; simpa using hst
  | cons j0 rest ih =>
    intro hjs st hst
    simp only [List.foldl_cons]
    exact ih (fun j hj => hjs j (List.mem_cons_of_mem _ hj)) _
      (rowStep_match a b hold (hjs j0 (List.mem_cons_self _ _)) hst)

theorem flmMain_match (alo ahi blo bhi : ℕ) :
    MatchedAt a b (flmMain isjunk autojunk a b alo ahi blo bhi).besti
      (flmMain isjunk autojunk a b alo ahi blo bhi).bestj
      (flmMain isjunk autojunk a b alo ahi blo bhi).bestsize := by
  have key : ∀ n,
      MatchedAt a b
        ((List.range' alo n).foldl
          (fun st i =>
            (rowCols isjunk autojunk a b blo bhi i).foldl
              (rowStep st.j2len i) { st with j2len := fun _ => 0 })
          ⟨fun _ => 0, alo, blo, 0⟩).besti
        ((List.range' alo n).foldl
          (fun st i =>
            (rowCols isjunk autojunk a b blo bhi i).foldl
              (rowStep st.j2len i) { st with j2len := fun _ => 0 })
          ⟨fun _ => 0, alo, blo, 0⟩).bestj
        ((List.range' alo n).foldl
          (fun st i =>
            (rowCols isjunk autojunk a b blo bhi i).foldl
              (rowStep st.j2len i) { st with j2len := fun _ => 0 })
          ⟨fun _ => 0, alo, blo, 0⟩).bestsize ∧
      DictM a b (alo + n)
        ((List.range' alo n).foldl
          (fun st i =>
            (rowCols isjunk autojunk a b blo bhi i).foldl
              (rowStep st.j2len i) { st with j2len := fun _ => 0 })
          ⟨fun _ => 0, alo, blo, 0⟩).j2len := by
    intro n
    induction n with
    | zero =>
      simp only [List.range'_zero, List.foldl_nil]
      constructor
      · intro t ht; exact absurd ht (Nat.not_lt_zero t)
      · intro j hj; exact absurd rfl hj
    | succ n ih =>
      rw [List.range'_1_concat, List.foldl_append]
      simp only [List.foldl_cons, List.foldl_nil, one_mul]
      set st := (List.range' alo n).foldl
        (fun st i =>
          (rowCols isjunk autojunk a b blo bhi i).foldl
            (rowStep st.j2len i) { st with j2len := fun _ => 0 })
        (⟨fun _ => 0, alo, blo, 0⟩ : FlmSt) with hstdef
      obtain ⟨ihb, ihd⟩ := ih
      have hrow := rowFold_match a b ihd
        (rowCols isjunk autojunk a b blo bhi (alo + n))
        (fun j hj => rowCols_val isjunk autojunk a b hj)
        { st with j2len := fun _ => 0 }
        ⟨ihb, fun j hj => absurd rfl hj⟩
      exact ⟨hrow.1, by
        have := hrow.2
        have e : alo + n + 1 = alo + (n + 1) := by omega
        rw [e] at this
        exact this⟩
  have := (key (ahi - alo)).1
  simpa only [flmMain] using this

theorem extBack_match (junkPhase : Bool) (alo blo : ℕ) :
    ∀ fuel bi bj bs, MatchedAt a b bi bj bs →
    MatchedAt a b (extBack isjunk a b junkPhase alo blo fuel bi bj bs).1
      (extBack isjunk a b junkPhase alo blo fuel bi bj bs).2.1
      (extBack isjunk a b junkPhase alo blo fuel bi bj bs).2.2 := by
  intro fuel
  induction fuel with
  | zero => intro bi bj bs h; exact h
  | succ fuel ih =>
    intro bi bj bs h
    simp only [extBack]
    split
    · next hc =>
      refine ih (bi - 1) (bj - 1) (bs + 1) ?_
      intro t ht
      cases t with
      | zero =>
        simpa using hc.2.2.2
      | succ t' =>
        have e1 : bi - 1 + (t' + 1) = bi + t' := by omega
        have e2 : bj - 1 + (t' + 1) = bj + t' := by omega
        rw [e1, e2]
        exact h t' (by omega)
    · exact h

theorem extFwd_match (junkPhase : Bool) (ahi bhi : ℕ) :
    ∀ fuel bi bj bs, MatchedAt a b bi bj bs →
    MatchedAt a b bi bj (extFwd isjunk a b junkPhase ahi bhi fuel bi bj bs) := by
  intro fuel
  induction fuel with
  | zero => intro bi bj bs h; exact h
  | succ fuel ih =>
    intro bi bj bs h
    simp only [extFwd]
    split
    · next hc =>
      refine ih bi bj (bs + 1) ?_
      intro t ht
      by_cases htb : t < bs
      · exact h t htb
      · have ht' : t = bs := by omega
        subst ht'
        exact hc.2.2.2
    · exact h

/-- The block returned by `find_longest_match` is a genuine match. -/
theorem flm_match (alo ahi blo bhi : ℕ) :
    MatchedAt a b (flm isjunk autojunk a b alo ahi blo bhi).1
      (flm isjunk autojunk a b alo ahi blo bhi).2.1
      (flm isjunk autojunk a b alo ahi blo bhi).2.2 := by
  have hmain := flmMain_match isjunk autojunk a b alo ahi blo bhi
  set st := flmMain isjunk autojunk a b alo ahi blo bhi
  have e1 := extBack_match isjunk a b false alo blo st.besti st.besti
    st.bestj st.bestsize hmain
  set r1 := extBack isjunk a b false alo blo st.besti st.besti st.bestj st.bestsize
  have s2 := extFwd_match isjunk a b false ahi bhi ahi r1.1 r1.2.1
    r1.2.2 e1
  set v2 := extFwd isjunk a b false ahi bhi ahi r1.1 r1.2.1 r1.2.2
  have e3 := extBack_match isjunk a b true alo blo r1.1 r1.1 r1.2.1
    v2 s2
  set r3 := extBack isjunk a b true alo blo r1.1 r1.1 r1.2.1 v2
  have s4 := extFwd_match isjunk a b true ahi bhi ahi r3.1 r3.2.1
    r3.2.2 e3
  simpa only [flm] using s4

end SMMatch

end Difflib

namespace Difflib

section SMChain

variable {α : Type} [DecidableEq α] [Inhabited α]
variable (isjunk : α → Bool) (autojunk : Bool) (a b : List α)

/-- The window `x[lo], x[lo+1], ..., x[lo+n-1]` read by `getD`. -/
def winSlice (x : List α) (lo n : ℕ) : List α :=
  (List.range' lo n).map (fun t => x.getD t default)

theorem winSlice_zero (x : List α) (lo : ℕ) : winSlice x lo 0 = [] := rfl

theorem winSlice_succ (x : List α) (lo n : ℕ) :
    winSlice x lo (n + 1) = x.getD lo default :: winSlice x (lo + 1) n := by
  unfold winSlice
  rw [List.range'_succ]
  rfl

theorem winSlice_append (x : List α) (lo m n : ℕ) :
    winSlice x lo (m + n) = winSlice x lo m ++ winSlice x (lo + m) n := by
  unfold winSlice
  rw [← List.map_append, List.range'_append_1]
  rw [Nat.add_comm n m]

/-- A `winSlice` covering the whole list is the list. -/
theorem winSlice_full (x : List α) : winSlice x 0 x.length = x := by
  have shift : ∀ (y : α) (ys : List α) (n lo : ℕ),
      (List.range' (lo + 1) n).map (fun t => (y :: ys).getD t default) =
      (List.range' lo n).map (fun t => ys.getD t default) := by
    intro y ys n
    induction n with
    | zero => intro lo; rfl
    | succ n ihn =>
      intro lo
      rw [List.range'_succ, List.range'_succ, List.map_cons, List.map_cons,
        ihn (lo + 1)]
      rfl
  induction x with
  | nil => rfl
  | cons y ys ih =>
    show winSlice (y :: ys) 0 (ys.length + 1) = y :: ys
    rw [winSlice_succ]
    unfold winSlice
    rw [shift y ys ys.length 0]
    unfold winSlice at ih
    rw [ih]
    rfl

/-- Two matched windows read equal slices. -/
theorem winSlice_of_matched {i j k : ℕ}
    (h : ∀ t, t < k → a.getD (i + t) default = b.getD (j + t) default) :
    winSlice a i k = winSlice b j k := by
  induction k generalizing i j with
  | zero => rfl
  | succ k ih =>
    rw [winSlice_succ, winSlice_succ]
    have hh : a.getD i default = b.getD j default := by
      have := h 0 (Nat.succ_pos k)
      simpa using this
    rw [hh]
    congr 1
    refine ih ?_
    intro t ht
    have := h (t + 1) (by omega)
    have e1 : i + (t + 1) = i + 1 + t := by omega
    have e2 : j + (t + 1) = j + 1 + t := by omega
    rw [e1, e2] at this
    exact this

/-- An ascending list of genuinely-matching in-bounds blocks starting at
cursor `(i, j)`: the shape `get_matching_blocks`' output always has. -/
inductive Chain : ℕ → ℕ → List (ℕ × ℕ × ℕ) → Prop
  | nil (i j : ℕ) : Chain i j []
  | cons {i j ai bj k : ℕ} {rest : List (ℕ × ℕ × ℕ)}
      (hia : i ≤ ai) (hjb : j ≤ bj)
      (hba : ai + k ≤ a.length) (hbb : bj + k ≤ b.length)
      (hm : ∀ t, t < k → a.getD (ai + t) default = b.getD (bj + t) default)
      (hrest : Chain (ai + k) (bj + k) rest) :
      Chain i j ((ai, bj, k) :: rest)

/-- The cursor after walking a block list from `(i, j)`. -/
def chainEnd : ℕ → ℕ → List (ℕ × ℕ × ℕ) → ℕ × ℕ
  | i, j, [] => (i, j)
  | _, _, (ai, bj, k) :: rest => chainEnd (ai + k) (bj + k) rest

theorem chainEnd_append (xs : List (ℕ × ℕ × ℕ)) : ∀ (i j : ℕ)
    (ys : List (ℕ × ℕ × ℕ)),
    chainEnd i j (xs ++ ys) =
      chainEnd (chainEnd i j xs).1 (chainEnd i j xs).2 ys := by
  induction xs with
  | nil => intro i j ys; rfl
  | cons blk rest ih =>
    intro i j ys
    rcases blk with ⟨ai, bj, k⟩
    show chainEnd (ai + k) (bj + k) (rest ++ ys) = _
    rw [ih]
    rfl

/-- A chain may start earlier. -/
theorem chain_weaken {i j i' j' : ℕ} {l : List (ℕ × ℕ × ℕ)}
    (h : Chain a b i' j' l) (hi : i ≤ i') (hj : j ≤ j') : Chain a b i j l := by
  cases h with
  | nil => exact Chain.nil i j
  | cons hia hjb hba hbb hm hrest =>
    exact Chain.cons (by omega) (by omega) hba hbb hm hrest

/-- Chains concatenate across the end cursor of the first. -/
theorem chain_append {i j : ℕ} {xs ys : List (ℕ × ℕ × ℕ)}
    (hxs : Chain a b i j xs)
    (hys : Chain a b (chainEnd i j xs).1 (chainEnd i j xs).2 ys) :
    Chain a b i j (xs ++ ys) := by
  induction hxs with
  | nil i j => exact hys
  | cons hia hjb hba hbb hm hrest ih =>
    exact Chain.cons hia hjb hba hbb hm (ih hys)

/-- `mbRec` produces a chain whose end stays inside the window. -/
theorem mbRec_chain : ∀ (fuel alo ahi blo bhi : ℕ),
    alo ≤ ahi → blo ≤ bhi → ahi ≤ a.length → bhi ≤ b.length →
    Chain a b alo blo (mbRec isjunk autojunk a b fuel alo ahi blo bhi) ∧
    (chainEnd alo blo (mbRec isjunk autojunk a b fuel alo ahi blo bhi)).1 ≤ ahi ∧
    (chainEnd alo blo (mbRec isjunk autojunk a b fuel alo ahi blo bhi)).2 ≤ bhi := by
  intro fuel
  induction fuel with
  | zero =>
    intro alo ahi blo bhi hab hbb _ _
    exact ⟨Chain.nil alo blo, hab, hbb⟩
  | succ fuel ih =>
    intro alo ahi blo bhi hab hbb hahi hbhi
    obtain ⟨hb1, hb2, hb3, hb4⟩ :=
      flm_bounds isjunk autojunk a b alo ahi blo bhi hab hbb
    have hmatch := flm_match isjunk autojunk a b alo ahi blo bhi
    simp only [mbRec]
    rcases hflm : flm isjunk autojunk a b alo ahi blo bhi with ⟨i, j, k⟩
    rw [hflm] at hb1 hb2 hb3 hb4 hmatch
    dsimp only at hb1 hb2 hb3 hb4 hmatch
    simp only
    by_cases hk : k = 0
    · rw [if_pos hk]
      exact ⟨Chain.nil alo blo, hab, hbb⟩
    · rw [if_neg hk]
      have hrtail : Chain a b (i + k) (j + k)
            (if i + k < ahi ∧ j + k < bhi then
              mbRec isjunk autojunk a b fuel (i + k) ahi (j + k) bhi else []) ∧
          (chainEnd (i + k) (j + k)
            (if i + k < ahi ∧ j + k < bhi then
              mbRec isjunk autojunk a b fuel (i + k) ahi (j + k) bhi else [])).1
            ≤ ahi ∧
          (chainEnd (i + k) (j + k)
            (if i + k < ahi ∧ j + k < bhi then
              mbRec isjunk autojunk a b fuel (i + k) ahi (j + k) bhi else [])).2
            ≤ bhi := by
        by_cases hrt : i + k < ahi ∧ j + k < bhi
        · rw [if_pos hrt]
          exact ih (i + k) ahi (j + k) bhi (by omega) (by omega) hahi hbhi
        · rw [if_neg hrt]
          exact ⟨Chain.nil _ _, hb3, hb4⟩
      have hmid : Chain a b i j ((i, j, k) ::
          (if i + k < ahi ∧ j + k < bhi then
            mbRec isjunk autojunk a b fuel (i + k) ahi (j + k) bhi else [])) :=
        Chain.cons (le_refl i) (le_refl j) (by omega) (by omega) hmatch hrtail.1
      have hleft : Chain a b alo blo
            (if alo < i ∧ blo < j then
              mbRec isjunk autojunk a b fuel alo i blo j else []) ∧
          (chainEnd alo blo
            (if alo < i ∧ blo < j then
              mbRec isjunk autojunk a b fuel alo i blo j else [])).1 ≤ i ∧
          (chainEnd alo blo
            (if alo < i ∧ blo < j then
              mbRec isjunk autojunk a b fuel alo i blo j else [])).2 ≤ j := by
        by_cases hlt : alo < i ∧ blo < j
        · rw [if_pos hlt]
          exact ih alo i blo j (by omega) (by omega) (by omega) (by omega)
        · rw [if_neg hlt]
          exact ⟨Chain.nil _ _, hb1, hb2⟩
      refine ⟨?_, ?_, ?_⟩
      · refine chain_append a b hleft.1 ?_
        exact chain_weaken a b hmid hleft.2.1 hleft.2.2
      · rw [chainEnd_append]
        show (chainEnd (i + k) (j + k) _).1 ≤ ahi
        exact hrtail.2.1
      · rw [chainEnd_append]
        show (chainEnd (i + k) (j + k) _).2 ≤ bhi
        exact hrtail.2.2

/-- `collapseGo` preserves being a chain. -/
theorem collapseGo_chain : ∀ (blocks : List (ℕ × ℕ × ℕ)) (cur : ℕ × ℕ × ℕ)
    (i j : ℕ), Chain a b i j (cur :: blocks) →
    Chain a b i j (collapseGo cur blocks) := by
  intro blocks
  induction blocks with
  | nil =>
    intro cur i j h
    show Chain a b i j (if cur.2.2 ≠ 0 then [cur] else [])
    by_cases hz : cur.2.2 ≠ 0
    · rw [if_pos hz]; cases h with
      | cons hia hjb hba hbb hm _ => exact Chain.cons hia hjb hba hbb hm (Chain.nil _ _)
    · rw [if_neg hz]; exact Chain.nil i j
  | cons nb rest ih =>
    intro cur i j h
    rcases cur with ⟨ci, cj, ck⟩
    rcases nb with ⟨ni, nj, nk⟩
    cases h with
    | cons hia hjb hba hbb hm hrest =>
      cases hrest with
      | cons hia2 hjb2 hba2 hbb2 hm2 hrest2 =>
        show Chain a b i j
          (if ci + ck = ni ∧ cj + ck = nj then
            collapseGo (ci, cj, ck + nk) rest
          else (if ck ≠ 0 then [(ci, cj, ck)] else []) ++ collapseGo (ni, nj, nk) rest)
        by_cases hadj : ci + ck = ni ∧ cj + ck = nj
        · rw [if_pos hadj]
          refine ih (ci, cj, ck + nk) i j ?_
          refine Chain.cons hia hjb (by omega) (by omega) ?_ ?_
          · intro t ht
            by_cases htc : t < ck
            · exact hm t htc
            · have e1 : ci + t = ni + (t - ck) := by omega
              have e2 : cj + t = nj + (t - ck) := by omega
              rw [e1, e2]
              exact hm2 (t - ck) (by omega)
          · have e1 : ci + (ck + nk) = ni + nk := by omega
            have e2 : cj + (ck + nk) = nj + nk := by omega
            rw [e1, e2]
            exact hrest2
        · rw [if_neg hadj]
          by_cases hz : ck ≠ 0
          · rw [if_pos hz]
            show Chain a b i j ((ci, cj, ck) :: collapseGo (ni, nj, nk) rest)
            refine Chain.cons hia hjb hba hbb hm ?_
            exact ih (ni, nj, nk) (ci + ck) (cj + ck)
              (Chain.cons hia2 hjb2 hba2 hbb2 hm2 hrest2)
          · rw [if_neg hz]
            simp only [List.nil_append]
            refine ih (ni, nj, nk) i j ?_
            refine Chain.cons (by omega) (by omega) hba2 hbb2 hm2 hrest2

/-- `get_matching_blocks`' output is a chain from the origin. -/
theorem getMatchingBlocks_chain :
    Chain a b 0 0 (getMatchingBlocks isjunk autojunk a b) := by
  unfold getMatchingBlocks
  have hrec := mbRec_chain isjunk autojunk a b (a.length + b.length + 1)
    0 a.length 0 b.length (Nat.zero_le _) (Nat.zero_le _) (le_refl _) (le_refl _)
  have hcol : Chain a b 0 0
      (collapseGo (0, 0, 0)
        (mbRec isjunk autojunk a b (a.length + b.length + 1)
          0 a.length 0 b.length)) := by
    refine collapseGo_chain a b _ (0, 0, 0) 0 0 ?_
    refine Chain.cons (le_refl 0) (le_refl 0) (Nat.zero_le _) (Nat.zero_le _)
      (fun t ht => absurd ht (Nat.not_lt_zero t)) ?_
    exact hrec.1
  have hend : ∀ (l : List (ℕ × ℕ × ℕ)) (i j : ℕ), Chain a b i j l →
      i ≤ a.length → j ≤ b.length →
      (chainEnd i j l).1 ≤ a.length ∧ (chainEnd i j l).2 ≤ b.length := by
    intro l
    induction l with
    | nil => intro i j _ hi hj; exact ⟨hi, hj⟩
    | cons blk rest ih =>
      intro i j h hi hj
      rcases blk with ⟨ai, bj, k⟩
      cases h with
      | cons hia hjb hba hbb hm hrest =>
        exact ih (ai + k) (bj + k) hrest hba hbb
  refine chain_append a b hcol ?_
  obtain ⟨he1, he2⟩ := hend _ 0 0 hcol (Nat.zero_le _) (Nat.zero_le _)
  exact Chain.cons he1 he2 (by omega) (by omega)
    (fun t ht => absurd ht (Nat.not_lt_zero t)) (Chain.nil _ _)

end SMChain

end Difflib

namespace NDiff

/-- Keep rule of the reconstruction of the "before" text: the
Removed + Unchanged rows of an ndiff delta (two-character prefix test, as
`difflib.restore(delta, 1)` does). -/
def keepM (l : Line) : Bool :=
  decide (l.take 2 = ['-', ' ']) || decide (l.take 2 = [' ', ' '])

/-- Keep rule of the reconstruction of the "after" text: the
Added + Unchanged rows. -/
def keepP (l : Line) : Bool :=
  decide (l.take 2 = ['+', ' ']) || decide (l.take 2 = [' ', ' '])

/-- Re-derive the "before" line list from a delta: keep Removed + Unchanged
rows in order and strip the two-character prefix. -/
def restoreM (d : List Line) : List Line :=
  (d.filter keepM).map (fun l => l.drop 2)

/-- Re-derive the "after" line list from a delta. -/
def restoreP (d : List Line) : List Line :=
  (d.filter keepP).map (fun l => l.drop 2)

theorem restoreM_append (x y : List Line) :
    restoreM (x ++ y) = restoreM x ++ restoreM y := by
  unfold restoreM
  rw [List.filter_append, List.map_append]

theorem restoreP_append (x y : List Line) :
    restoreP (x ++ y) = restoreP x ++ restoreP y := by
  unfold restoreP
  rw [List.filter_append, List.map_append]

theorem keepM_minus (s : Line) : keepM ('-' :: ' ' :: s) = true := rfl
theorem keepM_plus (s : Line) : keepM ('+' :: ' ' :: s) = false := rfl
theorem keepM_space (s : Line) : keepM (' ' :: ' ' :: s) = true := rfl
theorem keepM_q (s : Line) : keepM ('?' :: ' ' :: s) = false := rfl
theorem keepP_minus (s : Line) : keepP ('-' :: ' ' :: s) = false := rfl
theorem keepP_plus (s : Line) : keepP ('+' :: ' ' :: s) = true := rfl
theorem keepP_space (s : Line) : keepP (' ' :: ' ' :: s) = true := rfl
theorem keepP_q (s : Line) : keepP ('?' :: ' ' :: s) = false := rfl

theorem restoreM_cons_keep {c : Char} (s : Line) (rest : List Line)
    (h : keepM (c :: ' ' :: s) = true) :
    restoreM ((c :: ' ' :: s) :: rest) = s :: restoreM rest := by
  unfold restoreM
  rw [List.filter_cons, if_pos h]
  rfl

theorem restoreM_cons_drop {c : Char} (s : Line) (rest : List Line)
    (h : keepM (c :: ' ' :: s) = false) :
    restoreM ((c :: ' ' :: s) :: rest) = restoreM rest := by
  unfold restoreM
  rw [List.filter_cons, if_neg (by simp [h])]

theorem restoreP_cons_keep {c : Char} (s : Line) (rest : List Line)
    (h : keepP (c :: ' ' :: s) = true) :
    restoreP ((c :: ' ' :: s) :: rest) = s :: restoreP rest := by
  unfold restoreP
  rw [List.filter_cons, if_pos h]
  rfl

theorem restoreP_cons_drop {c : Char} (s : Line) (rest : List Line)
    (h : keepP (c :: ' ' :: s) = false) :
    restoreP ((c :: ' ' :: s) :: rest) = restoreP rest := by
  unfold restoreP
  rw [List.filter_cons, if_neg (by simp [h])]

/-- `dump` lines are `tag :: ' ' :: x[i]`, so each restore keeps all of a
matching dump and drops all of a non-matching one. -/
theorem dump_eq_map (tag : Char) (x : List Line) (lo hi : ℕ) :
    dump tag x lo hi =
      (List.range' lo (hi - lo)).map (fun i => tag :: ' ' :: x.getD i []) := rfl

theorem winSlice_eq_map (x : List Line) (lo n : ℕ) :
    Difflib.winSlice x lo n = (List.range' lo n).map (fun i => x.getD i []) := rfl

theorem restoreM_dump_minus (x : List Line) (lo hi : ℕ) :
    restoreM (dump '-' x lo hi) = Difflib.winSlice x lo (hi - lo) := by
  rw [dump_eq_map, winSlice_eq_map]
  generalize List.range' lo (hi - lo) = l
  induction l with
  | nil => rfl
  | cons i rest ih =>
    rw [List.map_cons, List.map_cons, restoreM_cons_keep _ _ (keepM_minus _), ih]

theorem restoreM_dump_plus (x : List Line) (lo hi : ℕ) :
    restoreM (dump '+' x lo hi) = [] := by
  rw [dump_eq_map]
  generalize List.range' lo (hi - lo) = l
  induction l with
  | nil => rfl
  | cons i rest ih =>
    rw [List.map_cons, restoreM_cons_drop _ _ (keepM_plus _), ih]

theorem restoreM_dump_space (x : List Line) (lo hi : ℕ) :
    restoreM (dump ' ' x lo hi) = Difflib.winSlice x lo (hi - lo) := by
  rw [dump_eq_map, winSlice_eq_map]
  generalize List.range' lo (hi - lo) = l
  induction l with
  | nil => rfl
  | cons i rest ih =>
    rw [List.map_cons, List.map_cons, restoreM_cons_keep _ _ (keepM_space _), ih]

theorem restoreP_dump_plus (x : List Line) (lo hi : ℕ) :
    restoreP (dump '+' x lo hi) = Difflib.winSlice x lo (hi - lo) := by
  rw [dump_eq_map, winSlice_eq_map]
  generalize List.range' lo (hi - lo) = l
  induction l with
  | nil => rfl
  | cons i rest ih =>
    rw [List.map_cons, List.map_cons, restoreP_cons_keep _ _ (keepP_plus _), ih]

theorem restoreP_dump_minus (x : List Line) (lo hi : ℕ) :
    restoreP (dump '-' x lo hi) = [] := by
  rw [dump_eq_map]
  generalize List.range' lo (hi - lo) = l
  induction l with
  | nil => rfl
  | cons i rest ih =>
    rw [List.map_cons, restoreP_cons_drop _ _ (keepP_minus _), ih]

theorem restoreP_dump_space (x : List Line) (lo hi : ℕ) :
    restoreP (dump ' ' x lo hi) = Difflib.winSlice x lo (hi - lo) := by
  rw [dump_eq_map, winSlice_eq_map]
  generalize List.range' lo (hi - lo) = l
  induction l with
  | nil => rfl
  | cons i rest ih =>
    rw [List.map_cons, List.map_cons, restoreP_cons_keep _ _ (keepP_space _), ih]

theorem restoreM_plainReplace (a : List Line) (alo ahi : ℕ) (b : List Line)
    (blo bhi : ℕ) :
    restoreM (plainReplace a alo ahi b blo bhi) =
      Difflib.winSlice a alo (ahi - alo) := by
  unfold plainReplace
  split
  · rw [restoreM_append, restoreM_dump_plus, restoreM_dump_minus,
      List.nil_append]
  · rw [restoreM_append, restoreM_dump_minus, restoreM_dump_plus,
      List.append_nil]

theorem restoreP_plainReplace (a : List Line) (alo ahi : ℕ) (b : List Line)
    (blo bhi : ℕ) :
    restoreP (plainReplace a alo ahi b blo bhi) =
      Difflib.winSlice b blo (bhi - blo) := by
  unfold plainReplace
  split
  · rw [restoreP_append, restoreP_dump_plus, restoreP_dump_minus,
      List.append_nil]
  · rw [restoreP_append, restoreP_dump_minus, restoreP_dump_plus,
      List.nil_append]

theorem qformat_shape (al bl at_ bt : List Char) :
    qformat al bl at_ bt = ('-' :: ' ' :: al) ::
      ((if PyStr.pyRstrip (keepOriginalWs al at_) ≠ [] then
          ['?' :: ' ' :: (PyStr.pyRstrip (keepOriginalWs al at_) ++ ['\n'])]
        else []) ++
       ('+' :: ' ' :: bl) ::
       (if PyStr.pyRstrip (keepOriginalWs bl bt) ≠ [] then
          ['?' :: ' ' :: (PyStr.pyRstrip (keepOriginalWs bl bt) ++ ['\n'])]
        else [])) := rfl

theorem restoreM_opt_q (c : Prop) [Decidable c] (s : List Char)
    (rest : List Line) :
    restoreM ((if c then ['?' :: ' ' :: s] else []) ++ rest) = restoreM rest := by
  by_cases h : c
  · rw [if_pos h, List.singleton_append, restoreM_cons_drop _ _ (keepM_q _)]
  · rw [if_neg h, List.nil_append]

theorem restoreP_opt_q (c : Prop) [Decidable c] (s : List Char)
    (rest : List Line) :
    restoreP ((if c then ['?' :: ' ' :: s] else []) ++ rest) = restoreP rest := by
  by_cases h : c
  · rw [if_pos h, List.singleton_append, restoreP_cons_drop _ _ (keepP_q _)]
  · rw [if_neg h, List.nil_append]

theorem restoreM_qformat (al bl at_ bt : List Char) :
    restoreM (qformat al bl at_ bt) = [al] := by
  rw [qformat_shape, restoreM_cons_keep _ _ (keepM_minus _), restoreM_opt_q,
    restoreM_cons_drop _ _ (keepM_plus _)]
  have : restoreM (if PyStr.pyRstrip (keepOriginalWs bl bt) ≠ [] then
      ['?' :: ' ' :: (PyStr.pyRstrip (keepOriginalWs bl bt) ++ ['\n'])]
      else []) = restoreM [] := by
    have := restoreM_opt_q (PyStr.pyRstrip (keepOriginalWs bl bt) ≠ [])
      (PyStr.pyRstrip (keepOriginalWs bl bt) ++ ['\n']) []
    rwa [List.append_nil] at this
  rw [this]
  rfl

theorem restoreP_qformat (al bl at_ bt : List Char) :
    restoreP (qformat al bl at_ bt) = [bl] := by
  rw [qformat_shape, restoreP_cons_drop _ _ (keepP_minus _), restoreP_opt_q,
    restoreP_cons_keep _ _ (keepP_plus _)]
  have : restoreP (if PyStr.pyRstrip (keepOriginalWs bl bt) ≠ [] then
      ['?' :: ' ' :: (PyStr.pyRstrip (keepOriginalWs bl bt) ++ ['\n'])]
      else []) = restoreP [] := by
    have := restoreP_opt_q (PyStr.pyRstrip (keepOriginalWs bl bt) ≠ [])
      (PyStr.pyRstrip (keepOriginalWs bl bt) ++ ['\n']) []
    rwa [List.append_nil] at this
  rw [this]
  rfl

/-- The first identical pair recorded by `fancySearch` is identical. -/
theorem fancySearch_eqval (a b : List Line) (alo ahi blo bhi : ℕ) :
    ∀ i j, (fancySearch a b alo ahi blo bhi).2.2 = some (i, j) →
      a.getD i [] = b.getD j [] := by
  have inner : ∀ (j : ℕ) (l : List ℕ)
      (st : Difflib.Ratio × Option (ℕ × ℕ) × Option (ℕ × ℕ)),
      (∀ i' j', st.2.2 = some (i', j') → a.getD i' [] = b.getD j' []) →
      (∀ i' j', (l.foldl
        (fun st i =>
          if a.getD i [] = b.getD j [] then
            (st.1, st.2.1, if st.2.2 = none then some (i, j) else st.2.2)
          else if Difflib.ratioLt st.1 (chRealQuickRatio (a.getD i []) (b.getD j [])) ∧
              Difflib.ratioLt st.1 (chQuickRatio (a.getD i []) (b.getD j [])) ∧
              Difflib.ratioLt st.1 (chRatio (a.getD i []) (b.getD j [])) then
            (chRatio (a.getD i []) (b.getD j []), some (i, j), st.2.2)
          else st) st).2.2 = some (i', j') → a.getD i' [] = b.getD j' []) := by
    intro j l
    induction l with
    | nil => intro st hst; exact hst
    | cons x rest ih =>
      intro st hst
      simp only [List.foldl_cons]
      refine ih _ ?_
      intro i' j'
      split
      · next heq =>
        split
        · intro hsome
          have hsome' : some (x, j) = some (i', j') := hsome
          simp only [Option.some.injEq, Prod.mk.injEq] at hsome'
          obtain ⟨rfl, rfl⟩ := hsome'
          exact heq
        · exact hst i' j'
      · split
        · exact hst i' j'
        · exact hst i' j'
  have outer : ∀ (lj : List ℕ)
      (st : Difflib.Ratio × Option (ℕ × ℕ) × Option (ℕ × ℕ)),
      (∀ i' j', st.2.2 = some (i', j') → a.getD i' [] = b.getD j' []) →
      (∀ i' j', (lj.foldl
        (fun st j =>
          (List.range' alo (ahi - alo)).foldl
            (fun st i =>
              if a.getD i [] = b.getD j [] then
                (st.1, st.2.1, if st.2.2 = none then some (i, j) else st.2.2)
              else if Difflib.ratioLt st.1 (chRealQuickRatio (a.getD i []) (b.getD j [])) ∧
                  Difflib.ratioLt st.1 (chQuickRatio (a.getD i []) (b.getD j [])) ∧
                  Difflib.ratioLt st.1 (chRatio (a.getD i []) (b.getD j [])) then
                (chRatio (a.getD i []) (b.getD j []), some (i, j), st.2.2)
              else st) st) st).2.2 = some (i', j') →
        a.getD i' [] = b.getD j' []) := by
    intro lj
    induction lj with
    | nil => intro st hst; exact hst
    | cons y rest ih =>
      intro st hst
      simp only [List.foldl_cons]
      exact ih _ (inner y (List.range' alo (ahi - alo)) st hst)
  intro i j h
  exact outer (List.range' blo (bhi - blo)) ((74, 100), none, none)
    (fun i' j' h' => absurd h' (by simp)) i j h

end NDiff

namespace Difflib

theorem winSlice_split3 {α : Type} [DecidableEq α] [Inhabited α] (x : List α)
    (lo n mid : ℕ) (h1 : lo ≤ mid) (h2 : mid < lo + n) :
    winSlice x lo n = winSlice x lo (mid - lo) ++
      x.getD mid default :: winSlice x (mid + 1) (lo + n - mid - 1) := by
  have hsplit := winSlice_append x lo (mid - lo) (lo + n - mid)
  have e1 : (mid - lo) + (lo + n - mid) = n := by omega
  have e2 : lo + (mid - lo) = mid := by omega
  rw [e1, e2] at hsplit
  rw [hsplit]
  congr 1
  have e3 : lo + n - mid = (lo + n - mid - 1) + 1 := by omega
  conv_lhs => rw [e3]
  rw [winSlice_succ]

end Difflib

namespace NDiff

theorem restoreM_cons_space_pre (s : Line) (rest : List Line) :
    restoreM (("  ".data ++ s) :: rest) = s :: restoreM rest :=
  restoreM_cons_keep s rest (keepM_space s)

theorem restoreP_cons_space_pre (s : Line) (rest : List Line) :
    restoreP (("  ".data ++ s) :: rest) = s :: restoreP rest :=
  restoreP_cons_keep s rest (keepP_space s)

/-- The output of `_fancy_replace` / `_fancy_helper` restores to exactly the
two window slices, for any fuel that the window measure cannot exhaust. -/
theorem fancy_restore : ∀ fuel : ℕ,
    (∀ (a b : List Line) (alo ahi blo bhi : ℕ), alo < ahi → blo < bhi →
      2 * ((ahi - alo) + (bhi - blo)) ≤ fuel + 1 →
      restoreM (fancyReplace fuel a b alo ahi blo bhi) =
        Difflib.winSlice a alo (ahi - alo) ∧
      restoreP (fancyReplace fuel a b alo ahi blo bhi) =
        Difflib.winSlice b blo (bhi - blo)) ∧
    (∀ (a b : List Line) (alo ahi blo bhi : ℕ),
      2 * ((ahi - alo) + (bhi - blo)) ≤ fuel →
      restoreM (fancyHelper fuel a b alo ahi blo bhi) =
        Difflib.winSlice a alo (ahi - alo) ∧
      restoreP (fancyHelper fuel a b alo ahi blo bhi) =
        Difflib.winSlice b blo (bhi - blo)) := by
  intro fuel
  induction fuel with
  | zero =>
    constructor
    · intro a b alo ahi blo bhi h1 h2 hf
      omega
    · intro a b alo ahi blo bhi hf
      have h1 : ahi - alo = 0 := by omega
      have h2 : bhi - blo = 0 := by omega
      rw [h1, h2]
      exact ⟨rfl, rfl⟩
  | succ fuel ih =>
    obtain ⟨ihR, ihH⟩ := ih
    constructor
    · intro a b alo ahi blo bhi hA hB hf
      rw [fancyReplace]
      split
      · rcases hs : (fancySearch a b alo ahi blo bhi).2.2 with _ | ⟨ei, ej⟩
        · exact ⟨restoreM_plainReplace a alo ahi b blo bhi,
            restoreP_plainReplace a alo ahi b blo bhi⟩
        · dsimp only
          obtain ⟨he1, he2, he3, he4⟩ :=
            (fancySearch_inv a b alo ahi blo bhi).2.1 ei ej hs
          have hval := fancySearch_eqval a b alo ahi blo bhi ei ej hs
          have hL := ihH a b alo ei blo ej (by omega)
          have hR := ihH a b (ei + 1) ahi (ej + 1) bhi (by omega)
          constructor
          · rw [restoreM_append, restoreM_cons_space_pre, hL.1, hR.1,
              Difflib.winSlice_split3 a alo (ahi - alo) ei (by omega) (by omega)]
            have e : alo + (ahi - alo) - ei - 1 = ahi - (ei + 1) := by omega
            rw [e]
            rfl
          · rw [restoreP_append, restoreP_cons_space_pre, hval, hL.2, hR.2,
              Difflib.winSlice_split3 b blo (bhi - blo) ej (by omega) (by omega)]
            have e : blo + (bhi - blo) - ej - 1 = bhi - (ej + 1) := by omega
            rw [e]
            rfl
      · next hcond =>
        rcases hs : (fancySearch a b alo ahi blo bhi).2.1 with _ | ⟨bi, bj⟩
        · exfalso
          have hr := (fancySearch_inv a b alo ahi blo bhi).2.2 hs
          rw [hr] at hcond
          exact hcond (by decide)
        · dsimp only
          obtain ⟨he1, he2, he3, he4⟩ :=
            (fancySearch_inv a b alo ahi blo bhi).1 bi bj hs
          have hL := ihH a b alo bi blo bj (by omega)
          have hR := ihH a b (bi + 1) ahi (bj + 1) bhi (by omega)
          constructor
          · rw [restoreM_append, restoreM_append, restoreM_qformat, hL.1, hR.1,
              List.append_assoc, List.singleton_append,
              Difflib.winSlice_split3 a alo (ahi - alo) bi (by omega) (by omega)]
            have e : alo + (ahi - alo) - bi - 1 = ahi - (bi + 1) := by omega
            rw [e]
            rfl
          · rw [restoreP_append, restoreP_append, restoreP_qformat, hL.2, hR.2,
              List.append_assoc, List.singleton_append,
              Difflib.winSlice_split3 b blo (bhi - blo) bj (by omega) (by omega)]
            have e : blo + (bhi - blo) - bj - 1 = bhi - (bj + 1) := by omega
            rw [e]
            rfl
    · intro a b alo ahi blo bhi hf
      rw [fancyHelper]
      by_cases h1 : alo < ahi
      · by_cases h2 : blo < bhi
        · rw [if_pos h1, if_pos h2]
          exact ihR a b alo ahi blo bhi h1 h2 hf
        · rw [if_pos h1, if_neg h2]
          refine ⟨restoreM_dump_minus a alo ahi, ?_⟩
          rw [restoreP_dump_minus]
          have e : bhi - blo = 0 := by omega
          rw [e]
          rfl
      · rw [if_neg h1]
        by_cases h2 : blo < bhi
        · rw [if_pos h2]
          refine ⟨?_, restoreP_dump_plus b blo bhi⟩
          rw [restoreM_dump_plus]
          have e : ahi - alo = 0 := by omega
          rw [e]
          rfl
        · rw [if_neg h2]
          have e1 : ahi - alo = 0 := by omega
          have e2 : bhi - blo = 0 := by omega
          rw [e1, e2]
          exact ⟨rfl, rfl⟩

end NDiff

namespace NDiff

/-- `Differ.compare`'s loop, as straight concatenation of per-opcode output. -/
def emitAll (a b : List Line) : List (Difflib.Tag × ℕ × ℕ × ℕ × ℕ) → List Line
  | [] => []
  | op :: rest => emitOp a b op ++ emitAll a b rest

theorem emitAll_append (a b : List Line) (xs ys : List (Difflib.Tag × ℕ × ℕ × ℕ × ℕ)) :
    emitAll a b (xs ++ ys) = emitAll a b xs ++ emitAll a b ys := by
  induction xs with
  | nil => rfl
  | cons op rest ih =>
    show emitOp a b op ++ emitAll a b (rest ++ ys) = _
    rw [ih, ← List.append_assoc]
    rfl

theorem compare_eq_emitAll (a b : List Line) :
    compare a b = emitAll a b (lineOpcodes a b) := by
  unfold compare
  have key : ∀ (ops : List (Difflib.Tag × ℕ × ℕ × ℕ × ℕ)) (acc : List Line),
      ops.foldl (fun acc op => acc ++ emitOp a b op) acc =
        acc ++ emitAll a b ops := by
    intro ops
    induction ops with
    | nil =>
      intro acc
      rw [List.foldl_nil]
      show acc = acc ++ []
      rw [List.append_nil]
    | cons op rest ih =>
      intro acc
      rw [List.foldl_cons, ih]
      show acc ++ emitOp a b op ++ emitAll a b rest = _
      rw [List.append_assoc]
      rfl
  rw [key]
  rfl

/-- Restores of the gap opcode emitted before a block. -/
theorem gap_restore (a b : List Line) (i ai j bj : ℕ) (hia : i ≤ ai)
    (hjb : j ≤ bj) (hila : ai ≤ a.length) (hjlb : bj ≤ b.length) :
    restoreM (emitAll a b
      (if i < ai ∧ j < bj then [(Difflib.Tag.replace, i, ai, j, bj)]
       else if i < ai then [(Difflib.Tag.delete, i, ai, j, bj)]
       else if j < bj then [(Difflib.Tag.insert, i, ai, j, bj)]
       else [])) = Difflib.winSlice a i (ai - i) ∧
    restoreP (emitAll a b
      (if i < ai ∧ j < bj then [(Difflib.Tag.replace, i, ai, j, bj)]
       else if i < ai then [(Difflib.Tag.delete, i, ai, j, bj)]
       else if j < bj then [(Difflib.Tag.insert, i, ai, j, bj)]
       else [])) = Difflib.winSlice b j (bj - j) := by
  by_cases h1 : i < ai ∧ j < bj
  · rw [if_pos h1]
    show restoreM (fancyReplace (fancyFuel a b) a b i ai j bj ++ []) = _ ∧
      restoreP (fancyReplace (fancyFuel a b) a b i ai j bj ++ []) = _
    rw [List.append_nil]
    have hfr := (fancy_restore (fancyFuel a b)).1 a b i ai j bj h1.1 h1.2
      (by unfold fancyFuel; omega)
    exact hfr
  · rw [if_neg h1]
    by_cases h2 : i < ai
    · rw [if_pos h2]
      show restoreM (dump '-' a i ai ++ []) = _ ∧
        restoreP (dump '-' a i ai ++ []) = _
      rw [List.append_nil]
      refine ⟨restoreM_dump_minus a i ai, ?_⟩
      rw [restoreP_dump_minus]
      have e : bj - j = 0 := by omega
      rw [e]
      rfl
    · rw [if_neg h2]
      by_cases h3 : j < bj
      · rw [if_pos h3]
        show restoreM (dump '+' b j bj ++ []) = _ ∧
          restoreP (dump '+' b j bj ++ []) = _
        rw [List.append_nil]
        refine ⟨?_, restoreP_dump_plus b j bj⟩
        rw [restoreM_dump_plus]
        have e : ai - i = 0 := by omega
        rw [e]
        rfl
      · rw [if_neg h3]
        have e1 : ai - i = 0 := by omega
        have e2 : bj - j = 0 := by omega
        rw [e1, e2]
        exact ⟨rfl, rfl⟩

/-- Restores of the equal opcode emitted for a genuinely matching block. -/
theorem eq_restore (a b : List Line) (ai bj k : ℕ)
    (hm : ∀ t, t < k → a.getD (ai + t) default = b.getD (bj + t) default) :
    restoreM (emitAll a b
      (if k ≠ 0 then [(Difflib.Tag.equal, ai, ai + k, bj, bj + k)] else [])) =
      Difflib.winSlice a ai k ∧
    restoreP (emitAll a b
      (if k ≠ 0 then [(Difflib.Tag.equal, ai, ai + k, bj, bj + k)] else [])) =
      Difflib.winSlice b bj k := by
  by_cases hk : k ≠ 0
  · rw [if_pos hk]
    show restoreM (dump ' ' a ai (ai + k) ++ []) = _ ∧
      restoreP (dump ' ' a ai (ai + k) ++ []) = _
    rw [List.append_nil]
    have e : ai + k - ai = k := by omega
    constructor
    · rw [restoreM_dump_space, e]
    · rw [restoreP_dump_space, e]
      exact Difflib.winSlice_of_matched a b hm
  · rw [if_neg hk]
    have e : k = 0 := by omega
    rw [e]
    exact ⟨rfl, rfl⟩

theorem chainEnd_ge (a b : List Line) : ∀ (l : List (ℕ × ℕ × ℕ)) (i j : ℕ),
    Difflib.Chain a b i j l →
    i ≤ (Difflib.chainEnd i j l).1 ∧ j ≤ (Difflib.chainEnd i j l).2 := by
  intro l
  induction l with
  | nil => intro i j _; exact ⟨le_refl i, le_refl j⟩
  | cons blk rest ih =>
    intro i j h
    rcases blk with ⟨ai, bj, k⟩
    cases h with
    | cons hia hjb hba hbb hm hrest =>
      have := ih (ai + k) (bj + k) hrest
      exact ⟨by
        show i ≤ (Difflib.chainEnd (ai + k) (bj + k) rest).1
        omega, by
        show j ≤ (Difflib.chainEnd (ai + k) (bj + k) rest).2
        omega⟩

/-- Walking `get_opcodes`' loop over any chain of blocks restores to exactly
the slices between the start cursor and the chain's end cursor. -/
theorem chain_restore (a b : List Line) : ∀ (blocks : List (ℕ × ℕ × ℕ)) (i j : ℕ),
    Difflib.Chain a b i j blocks →
    restoreM (emitAll a b (Difflib.opcodesGo i j blocks)) =
      Difflib.winSlice a i ((Difflib.chainEnd i j blocks).1 - i) ∧
    restoreP (emitAll a b (Difflib.opcodesGo i j blocks)) =
      Difflib.winSlice b j ((Difflib.chainEnd i j blocks).2 - j) := by
  intro blocks
  induction blocks with
  | nil =>
    intro i j _
    show restoreM (emitAll a b []) = Difflib.winSlice a i (i - i) ∧
      restoreP (emitAll a b []) = Difflib.winSlice b j (j - j)
    have e1 : i - i = 0 := by omega
    have e2 : j - j = 0 := by omega
    rw [e1, e2]
    exact ⟨rfl, rfl⟩
  | cons blk rest ih =>
    intro i j h
    rcases blk with ⟨ai, bj, k⟩
    cases h with
    | cons hia hjb hba hbb hm hrest =>
      have htail := ih (ai + k) (bj + k) hrest
      obtain ⟨hge1, hge2⟩ := chainEnd_ge a b rest (ai + k) (bj + k) hrest
      have hEnd : Difflib.chainEnd i j ((ai, bj, k) :: rest) =
          Difflib.chainEnd (ai + k) (bj + k) rest := rfl
      rw [hEnd]
      set E := Difflib.chainEnd (ai + k) (bj + k) rest with hE
      have hops : Difflib.opcodesGo i j ((ai, bj, k) :: rest) =
          (if i < ai ∧ j < bj then [(Difflib.Tag.replace, i, ai, j, bj)]
           else if i < ai then [(Difflib.Tag.delete, i, ai, j, bj)]
           else if j < bj then [(Difflib.Tag.insert, i, ai, j, bj)]
           else []) ++
          ((if k ≠ 0 then [(Difflib.Tag.equal, ai, ai + k, bj, bj + k)] else []) ++
           Difflib.opcodesGo (ai + k) (bj + k) rest) := by
        rw [Difflib.opcodesGo]
        rw [List.append_assoc]
      rw [hops, emitAll_append, emitAll_append, restoreM_append, restoreM_append,
        restoreP_append, restoreP_append]
      obtain ⟨hgM, hgP⟩ := gap_restore a b i ai j bj hia hjb (by omega) (by omega)
      obtain ⟨heM, heP⟩ := eq_restore a b ai bj k hm
      rw [hgM, hgP, heM, heP, htail.1, htail.2]
      constructor
      · have key : E.1 - i = (ai - i) + (k + (E.1 - (ai + k))) := by omega
        rw [key, Difflib.winSlice_append, Difflib.winSlice_append]
        have e1 : i + (ai - i) = ai := by omega
        rw [e1]
      · have key : E.2 - j = (bj - j) + (k + (E.2 - (bj + k))) := by omega
        rw [key, Difflib.winSlice_append, Difflib.winSlice_append]
        have e1 : j + (bj - j) = bj := by omega
        rw [e1]

/-- `Differ.compare`'s output restores to exactly its two inputs. -/
theorem compare_restore (a b : List Line) :
    restoreM (compare a b) = a ∧ restoreP (compare a b) = b := by
  rw [compare_eq_emitAll]
  have hlo : lineOpcodes a b =
      Difflib.opcodesGo 0 0 (Difflib.getMatchingBlocks noJunk true a b) := rfl
  rw [hlo]
  have hch := Difflib.getMatchingBlocks_chain noJunk true a b
  have hmain := chain_restore a b _ 0 0 hch
  have hend : Difflib.chainEnd 0 0 (Difflib.getMatchingBlocks noJunk true a b) =
      (a.length, b.length) := by
    unfold Difflib.getMatchingBlocks
    rw [Difflib.chainEnd_append]
    rfl
  rw [hend] at hmain
  have e1 : a.length - 0 = a.length := by omega
  have e2 : b.length - 0 = b.length := by omega
  rw [e1, e2] at hmain
  rw [hmain.1, hmain.2, Difflib.winSlice_full, Difflib.winSlice_full]
  exact ⟨rfl, rfl⟩

end NDiff

namespace Difflib

section SMIdent

variable {α : Type} [DecidableEq α] [Inhabited α]
variable (isjunk : α → Bool) (autojunk : Bool) (b : List α)

/-- Column `j` supports the diagonal: it is at/after the window start and its
own element's `b2j` entry survives the junk/popularity purge and lists it. -/
def diagOK (alo : ℕ) (j : ℕ) : Bool :=
  decide (alo ≤ j) && decide (j ∈ b2j isjunk autojunk b (b.getD j default))

/-- Length of the maximal diagonal run of `diagOK` columns ending at `j`,
clipped at the window start. -/
def dval (alo : ℕ) : ℕ → ℕ
  | 0 => if diagOK isjunk autojunk b alo 0 then 1 else 0
  | j + 1 => if diagOK isjunk autojunk b alo (j + 1) then dval alo j + 1 else 0

theorem dval_le (alo : ℕ) : ∀ j, dval isjunk autojunk b alo j ≤ j + 1 := by
  intro j
  induction j with
  | zero =>
    show (if diagOK isjunk autojunk b alo 0 then 1 else 0) ≤ 1
    split <;> omega
  | succ j ih =>
    show (if diagOK isjunk autojunk b alo (j + 1) then
      dval isjunk autojunk b alo j + 1 else 0) ≤ j + 2
    split <;> omega

theorem dval_lt_alo (alo j : ℕ) (h : j < alo) :
    dval isjunk autojunk b alo j = 0 := by
  have hOK : diagOK isjunk autojunk b alo j = false := by
    unfold diagOK
    have : decide (alo ≤ j) = false := by
      rw [decide_eq_false_iff_not]
      omega
    rw [this, Bool.false_and]
  cases j with
  | zero =>
    show (if diagOK isjunk autojunk b alo 0 then 1 else 0) = 0
    rw [hOK]
    rfl
  | succ j =>
    show (if diagOK isjunk autojunk b alo (j + 1) then
      dval isjunk autojunk b alo j + 1 else 0) = 0
    rw [hOK]
    rfl

theorem dval_of_run (alo : ℕ) : ∀ (k i : ℕ),
    (∀ t, t < k → diagOK isjunk autojunk b alo (i - t) = true) → k ≤ i + 1 →
    k ≤ dval isjunk autojunk b alo i := by
  intro k
  induction k with
  | zero => intro i _ _; omega
  | succ k ih =>
    intro i hrun hle
    have hOK : diagOK isjunk autojunk b alo i = true := by
      have := hrun 0 (Nat.succ_pos k)
      simpa using this
    cases i with
    | zero =>
      show k + 1 ≤ (if diagOK isjunk autojunk b alo 0 then 1 else 0)
      rw [hOK, if_pos rfl]
      omega
    | succ i' =>
      show k + 1 ≤ (if diagOK isjunk autojunk b alo (i' + 1) then
        dval isjunk autojunk b alo i' + 1 else 0)
      rw [hOK, if_pos rfl]
      have hk : k ≤ dval isjunk autojunk b alo i' := by
        refine ih i' ?_ (by omega)
        intro t ht
        have := hrun (t + 1) (by omega)
        have e : i' + 1 - (t + 1) = i' - t := by omega
        rwa [e] at this
      omega

theorem mem_idxsOf {x : α} {j : ℕ} :
    j ∈ idxsOf b x ↔ j < b.length ∧ b.getD j default = x := by
  unfold idxsOf
  rw [List.mem_filter, List.mem_range]
  simp only [decide_eq_true_eq]

theorem b2j_mem_of_mem {x : α} {j0 i : ℕ}
    (hne : j0 ∈ b2j isjunk autojunk b x) (hi : i < b.length)
    (hval : b.getD i default = x) : i ∈ b2j isjunk autojunk b x := by
  rw [b2j_eq] at hne ⊢
  split at hne
  · exact absurd hne (List.not_mem_nil j0)
  · split at hne
    · exact absurd hne (List.not_mem_nil j0)
    · next h1 h2 =>
      rw [if_neg h1, if_neg h2]
      exact (mem_idxsOf b).mpr ⟨hi, hval⟩

theorem pairwise_idxsOf (x : α) : List.Pairwise (· < ·) (idxsOf b x) :=
  (List.pairwise_lt_range b.length).filter _

theorem pairwise_b2j (x : α) :
    List.Pairwise (· < ·) (b2j isjunk autojunk b x) := by
  rw [b2j_eq]
  split
  · exact List.Pairwise.nil
  · split
    · exact List.Pairwise.nil
    · exact pairwise_idxsOf b x

theorem pairwise_rowCols (a : List α) (blo bhi i : ℕ) :
    List.Pairwise (· < ·) (rowCols isjunk autojunk a b blo bhi i) :=
  (pairwise_b2j isjunk autojunk b (a.getD i default)).filter _

end SMIdent

end Difflib

namespace Difflib

section SMIdent2

variable {α : Type} [DecidableEq α] [Inhabited α]
variable (isjunk : α → Bool) (autojunk : Bool) (b : List α)

/-- Dict certificate for the identity run (`a = b`, diagonal window starting
at `alo`), for a dict whose chains end at row `i - 1`: every nonzero entry is
bounded by the diagonal run at its column, by the processed row count, and
its rows all support the diagonal. -/
def IdDict (alo i : ℕ) (f : ℕ → ℕ) : Prop :=
  ∀ j, f j ≠ 0 → f j ≤ dval isjunk autojunk b alo j ∧ f j ≤ i - alo ∧
    ∀ t, t < f j → diagOK isjunk autojunk b alo (i - 1 - t) = true

/-- The dict entry on the diagonal of the last processed row dominates the
diagonal run. -/
def IdDiag (alo i : ℕ) (f : ℕ → ℕ) : Prop :=
  ∀ j, j + 1 = i → alo ≤ j → dval isjunk autojunk b alo j ≤ f j

/-- Within-row invariant at row `i` of the identity run, with `rest` the
columns not yet folded. -/
def IdRow (alo ahi i : ℕ) (rest : List ℕ) (st : FlmSt) : Prop :=
  st.besti = st.bestj ∧
  (∀ r, alo ≤ r → r < i → dval isjunk autojunk b alo r ≤ st.bestsize) ∧
  (dval isjunk autojunk b alo i ≤ st.bestsize ∨ i ∈ rest ∨
    ¬ i ∈ rowCols isjunk autojunk b b alo ahi i) ∧
  IdDict isjunk autojunk b alo (i + 1) st.j2len ∧
  (dval isjunk autojunk b alo i ≤ st.j2len i ∨ i ∈ rest ∨
    ¬ i ∈ rowCols isjunk autojunk b b alo ahi i)

theorem diag_mem_rowCols {alo ahi i : ℕ} (hi_ahi : i < ahi)
    (hOK : diagOK isjunk autojunk b alo i = true) :
    i ∈ rowCols isjunk autojunk b b alo ahi i := by
  unfold diagOK at hOK
  rw [Bool.and_eq_true, decide_eq_true_eq, decide_eq_true_eq] at hOK
  refine List.mem_filter.mpr ⟨hOK.2, ?_⟩
  rw [Bool.and_eq_true, decide_eq_true_eq, decide_eq_true_eq]
  exact ⟨hOK.1, hi_ahi⟩

theorem dval_zero_of_not (alo j : ℕ)
    (h : ¬ diagOK isjunk autojunk b alo j = true) :
    dval isjunk autojunk b alo j = 0 := by
  cases j with
  | zero =>
    show (if diagOK isjunk autojunk b alo 0 then 1 else 0) = 0
    rw [if_neg h]
  | succ j =>
    show (if diagOK isjunk autojunk b alo (j + 1) then
      dval isjunk autojunk b alo j + 1 else 0) = 0
    rw [if_neg h]

theorem idRowStep (alo ahi i : ℕ) (hrow : alo ≤ i) (hi_ahi : i < ahi)
    (hlen : ahi ≤ b.length) {old : ℕ → ℕ}
    (holdD : IdDict isjunk autojunk b alo i old)
    (holdG : IdDiag isjunk autojunk b alo i old)
    {j0 : ℕ} (hj0 : j0 ∈ rowCols isjunk autojunk b b alo ahi i)
    {rest' : List ℕ} (hrest' : ∀ x ∈ rest', j0 < x)
    {st : FlmSt} (hst : IdRow isjunk autojunk b alo ahi i (j0 :: rest') st) :
    IdRow isjunk autojunk b alo ahi i rest' (rowStep old i st j0) := by
  obtain ⟨hbd, hrd, hthird, hdict, hfifth⟩ := hst
  have hj0win := rowCols_mem isjunk autojunk b b hj0
  have hval : b.getD j0 default = b.getD i default :=
    rowCols_val isjunk autojunk b b hj0
  have hmemb : j0 ∈ b2j isjunk autojunk b (b.getD i default) :=
    List.mem_of_mem_filter hj0
  have hOKj0 : diagOK isjunk autojunk b alo j0 = true := by
    unfold diagOK
    rw [Bool.and_eq_true, decide_eq_true_eq, decide_eq_true_eq]
    rw [hval]
    exact ⟨hj0win.1, hmemb⟩
  have hOKi : diagOK isjunk autojunk b alo i = true := by
    unfold diagOK
    rw [Bool.and_eq_true, decide_eq_true_eq, decide_eq_true_eq]
    exact ⟨hrow, b2j_mem_of_mem isjunk autojunk b hmemb (by omega) rfl⟩
  have hiC : i ∈ rowCols isjunk autojunk b b alo ahi i :=
    diag_mem_rowCols isjunk autojunk b hi_ahi hOKi
  have hk1 : 1 ≤ kval old j0 := by cases j0 <;> simp [kval]
  have hkd : kval old j0 ≤ dval isjunk autojunk b alo j0 := by
    cases j0 with
    | zero =>
      show kval old 0 ≤ (if diagOK isjunk autojunk b alo 0 then 1 else 0)
      rw [hOKj0, if_pos rfl]
      simp [kval]
    | succ j' =>
      show kval old (j' + 1) ≤ (if diagOK isjunk autojunk b alo (j' + 1) then
        dval isjunk autojunk b alo j' + 1 else 0)
      rw [hOKj0, if_pos rfl]
      by_cases hz : old j' = 0
      · simp [kval, hz]
      · have := (holdD j' hz).1
        simp only [kval]
        omega
  have hkrow : kval old j0 ≤ i + 1 - alo := by
    cases j0 with
    | zero => simp [kval]; omega
    | succ j' =>
      by_cases hz : old j' = 0
      · simp [kval, hz]; omega
      · have := (holdD j' hz).2.1
        simp only [kval]
        omega
  have hcert : ∀ t, t < kval old j0 →
      diagOK isjunk autojunk b alo (i - t) = true := by
    intro t ht
    cases t with
    | zero => simpa using hOKi
    | succ t' =>
      cases j0 with
      | zero => simp [kval] at ht
      | succ j' =>
        by_cases hz : old j' = 0
        · simp [kval, hz] at ht
        · have hc := (holdD j' hz).2.2 t' (by
            simp only [kval] at ht
            omega)
          have e : i - 1 - t' = i - (t' + 1) := by omega
          rwa [e] at hc
  have hkdi : kval old j0 ≤ dval isjunk autojunk b alo i :=
    dval_of_run isjunk autojunk b alo (kval old j0) i hcert (by omega)
  have hdik : j0 = i → dval isjunk autojunk b alo i ≤ kval old j0 := by
    intro hji
    subst hji
    cases hj00 : j0 with
    | zero =>
      have := dval_le isjunk autojunk b alo 0
      have hk : kval old 0 = 1 := by simp [kval]
      omega
    | succ i' =>
      by_cases hOK : diagOK isjunk autojunk b alo (i' + 1) = true
      · have hd : dval isjunk autojunk b alo (i' + 1) =
            dval isjunk autojunk b alo i' + 1 := by
          show (if diagOK isjunk autojunk b alo (i' + 1) then
            dval isjunk autojunk b alo i' + 1 else 0) = _
          rw [hOK, if_pos rfl]
        rw [hd]
        by_cases halo : alo ≤ i'
        · have := holdG i' (by omega) halo
          simp only [kval]
          omega
        · have := dval_lt_alo isjunk autojunk b alo i' (by omega)
          simp only [kval]
          omega
      · have hd : dval isjunk autojunk b alo (i' + 1) = 0 := by
          show (if diagOK isjunk autojunk b alo (i' + 1) then
            dval isjunk autojunk b alo i' + 1 else 0) = _
          rw [if_neg (by simp [hOK])]
        rw [hd]
        omega
  by_cases hup : st.bestsize < kval old j0
  · have hji : j0 = i := by
      by_contra hne
      rcases Nat.lt_or_ge j0 i with hlt | hge
      · have h1 := hrd j0 hj0win.1 hlt
        omega
      · have hgt : i < j0 := by omega
        rcases hthird with hc1 | hc2 | hc3
        · omega
        · rcases List.mem_cons.mp hc2 with he | hm
          · omega
          · have := hrest' i hm
            omega
        · exact hc3 hiC
    refine ⟨?_, ?_, ?_, ?_, ?_⟩
    · simp only [rowStep, if_pos hup]
      omega
    · intro r hr1 hr2
      have := hrd r hr1 hr2
      simp only [rowStep, if_pos hup]
      omega
    · left
      simp only [rowStep, if_pos hup]
      have := hdik hji
      omega
    · intro j hj
      simp only [rowStep] at hj ⊢
      by_cases hjeq : j = j0
      · subst hjeq
        rw [if_pos rfl]
        refine ⟨hkd, ?_, ?_⟩
        · omega
        · intro t ht
          have := hcert t ht
          have e : i + 1 - 1 - t = i - t := by omega
          rwa [e]
      · rw [if_neg hjeq] at hj ⊢
        exact hdict j hj
    · left
      subst hji
      simp only [rowStep, if_pos rfl]
      exact hdik rfl
  · refine ⟨?_, ?_, ?_, ?_, ?_⟩
    · simp only [rowStep, if_neg hup]
      exact hbd
    · intro r hr1 hr2
      simp only [rowStep, if_neg hup]
      exact hrd r hr1 hr2
    · by_cases hji : j0 = i
      · left
        simp only [rowStep, if_neg hup]
        have h1 := hdik hji
        omega
      · rcases hthird with hc1 | hc2 | hc3
        · left
          simp only [rowStep, if_neg hup]
          exact hc1
        · rcases List.mem_cons.mp hc2 with he | hm
          · exact absurd he.symm hji
          · right; left; exact hm
        · right; right; exact hc3
    · intro j hj
      simp only [rowStep] at hj ⊢
      by_cases hjeq : j = j0
      · subst hjeq
        rw [if_pos rfl]
        refine ⟨hkd, by omega, ?_⟩
        intro t ht
        have := hcert t ht
        have e : i + 1 - 1 - t = i - t := by omega
        rwa [e]
      · rw [if_neg hjeq] at hj ⊢
        exact hdict j hj
    · by_cases hji : j0 = i
      · left
        subst hji
        simp only [rowStep, if_pos rfl]
        exact hdik rfl
      · rcases hfifth with hc1 | hc2 | hc3
        · left
          simp only [rowStep]
          rw [if_neg (by omega : ¬ i = j0)]
          exact hc1
        · rcases List.mem_cons.mp hc2 with he | hm
          · exact absurd he.symm hji
          · right; left; exact hm
        · right; right; exact hc3

theorem idRowFold (alo ahi i : ℕ) (hrow : alo ≤ i) (hi_ahi : i < ahi)
    (hlen : ahi ≤ b.length) {old : ℕ → ℕ}
    (holdD : IdDict isjunk autojunk b alo i old)
    (holdG : IdDiag isjunk autojunk b alo i old) :
    ∀ (cols : List ℕ), List.Pairwise (· < ·) cols →
    (∀ x ∈ cols, x ∈ rowCols isjunk autojunk b b alo ahi i) →
    ∀ st, IdRow isjunk autojunk b alo ahi i cols st →
    IdRow isjunk autojunk b alo ahi i [] (cols.foldl (rowStep old i) st) := by
  intro cols
  induction cols with
  | nil => intro _ _ st hst; exact hst
  | cons j0 rest ih =>
    intro hpw hsub st hst
    rw [List.pairwise_cons] at hpw
    simp only [List.foldl_cons]
    exact ih hpw.2 (fun x hx => hsub x (List.mem_cons_of_mem _ hx)) _
      (idRowStep isjunk autojunk b alo ahi i hrow hi_ahi hlen holdD holdG
        (hsub j0 (List.mem_cons_self _ _)) hpw.1 hst)

/-- On identical inputs the final best block of `find_longest_match`'s main
double loop lies on the diagonal. -/
theorem flmMain_identity (alo ahi : ℕ) (hlen : ahi ≤ b.length) :
    (flmMain isjunk autojunk b b alo ahi alo ahi).besti =
      (flmMain isjunk autojunk b b alo ahi alo ahi).bestj := by
  have key : ∀ n, n ≤ ahi - alo →
      (((List.range' alo n).foldl
        (fun st i =>
          (rowCols isjunk autojunk b b alo ahi i).foldl
            (rowStep st.j2len i) { st with j2len := fun _ => 0 })
        ⟨fun _ => 0, alo, alo, 0⟩).besti =
       ((List.range' alo n).foldl
        (fun st i =>
          (rowCols isjunk autojunk b b alo ahi i).foldl
            (rowStep st.j2len i) { st with j2len := fun _ => 0 })
        ⟨fun _ => 0, alo, alo, 0⟩).bestj) ∧
      (∀ r, alo ≤ r → r < alo + n →
        dval isjunk autojunk b alo r ≤
          ((List.range' alo n).foldl
            (fun st i =>
              (rowCols isjunk autojunk b b alo ahi i).foldl
                (rowStep st.j2len i) { st with j2len := fun _ => 0 })
            ⟨fun _ => 0, alo, alo, 0⟩).bestsize) ∧
      IdDict isjunk autojunk b alo (alo + n)
        ((List.range' alo n).foldl
          (fun st i =>
            (rowCols isjunk autojunk b b alo ahi i).foldl
              (rowStep st.j2len i) { st with j2len := fun _ => 0 })
          ⟨fun _ => 0, alo, alo, 0⟩).j2len ∧
      IdDiag isjunk autojunk b alo (alo + n)
        ((List.range' alo n).foldl
          (fun st i =>
            (rowCols isjunk autojunk b b alo ahi i).foldl
              (rowStep st.j2len i) { st with j2len := fun _ => 0 })
          ⟨fun _ => 0, alo, alo, 0⟩).j2len := by
    intro n
    induction n with
    | zero =>
      intro _
      simp only [List.range'_zero, List.foldl_nil]
      refine ⟨by trivial, ?_, ?_, ?_⟩
      · intro r hr1 hr2; omega
      · intro j hj; exact absurd rfl hj
      · intro j hj1 hj2
        have : j < alo := by omega
        rw [dval_lt_alo isjunk autojunk b alo j this]
    | succ n ihn =>
      intro hn
      have ih := ihn (by omega)
      rw [List.range'_1_concat, List.foldl_append]
      simp only [List.foldl_cons, List.foldl_nil, one_mul]
      set st := (List.range' alo n).foldl
        (fun st i =>
          (rowCols isjunk autojunk b b alo ahi i).foldl
            (rowStep st.j2len i) { st with j2len := fun _ => 0 })
        (⟨fun _ => 0, alo, alo, 0⟩ : FlmSt) with hstdef
      obtain ⟨ihb, ihr, ihd, ihg⟩ := ih
      have hi_ahi : alo + n < ahi := by omega
      have hstart : IdRow isjunk autojunk b alo ahi (alo + n)
          (rowCols isjunk autojunk b b alo ahi (alo + n))
          { st with j2len := fun _ => 0 } := by
        refine ⟨ihb, ihr, ?_, ?_, ?_⟩
        · by_cases hC : (alo + n) ∈ rowCols isjunk autojunk b b alo ahi (alo + n)
          · right; left; exact hC
          · right; right; exact hC
        · intro j hj; exact absurd rfl hj
        · by_cases hC : (alo + n) ∈ rowCols isjunk autojunk b b alo ahi (alo + n)
          · right; left; exact hC
          · right; right; exact hC
      have hfold := idRowFold isjunk autojunk b alo ahi (alo + n) (by omega)
        hi_ahi hlen ihd ihg
        (rowCols isjunk autojunk b b alo ahi (alo + n))
        (pairwise_rowCols isjunk autojunk b b alo ahi (alo + n))
        (fun x hx => hx)
        { st with j2len := fun _ => 0 } hstart
      obtain ⟨gb, gr, gthird, gdict, gfifth⟩ := hfold
      have hdvi : dval isjunk autojunk b alo (alo + n) ≤
          ((rowCols isjunk autojunk b b alo ahi (alo + n)).foldl
            (rowStep st.j2len (alo + n))
            { st with j2len := fun _ => 0 }).bestsize := by
        rcases gthird with h | h | h
        · exact h
        · exact absurd h (List.not_mem_nil _)
        · by_cases hOK : diagOK isjunk autojunk b alo (alo + n) = true
          · exact absurd (diag_mem_rowCols isjunk autojunk b hi_ahi hOK) h
          · rw [dval_zero_of_not isjunk autojunk b alo (alo + n) hOK]
            exact Nat.zero_le _
      refine ⟨gb, ?_, ?_, ?_⟩
      · intro r hr1 hr2
        by_cases hcase : r < alo + n
        · exact gr r hr1 hcase
        · have : r = alo + n := by omega
          subst this
          exact hdvi
      · have e : alo + n + 1 = alo + (n + 1) := by omega
        rw [← e]
        exact gdict
      · intro j hj1 hj2
        have hji : j = alo + n := by omega
        subst hji
        rcases gfifth with h | h | h
        · exact h
        · exact absurd h (List.not_mem_nil _)
        · by_cases hOK : diagOK isjunk autojunk b alo (alo + n) = true
          · exact absurd (diag_mem_rowCols isjunk autojunk b hi_ahi hOK) h
          · rw [dval_zero_of_not isjunk autojunk b alo (alo + n) hOK]
            exact Nat.zero_le _
  have := (key (ahi - alo) (le_refl _)).1
  simpa only [flmMain] using this

end SMIdent2

end Difflib

namespace Difflib

section SMIdent3

variable {α : Type} [DecidableEq α] [Inhabited α]
variable (isjunk : α → Bool) (autojunk : Bool) (b : List α)

theorem bjunkMem_false (hj : ∀ x, isjunk x = false) (x : α) :
    bjunkMem isjunk b x = false := by
  unfold bjunkMem
  rw [hj]
  exact Bool.false_and _

theorem extBack_diag (hj : ∀ x, isjunk x = false) (alo : ℕ) :
    ∀ fuel d bs, alo ≤ d → d - alo ≤ fuel →
    extBack isjunk b b false alo alo fuel d d bs = (alo, alo, bs + (d - alo)) := by
  intro fuel
  induction fuel with
  | zero =>
    intro d bs had hfd
    have hd : d = alo := by omega
    subst hd
    rw [Nat.sub_self, Nat.add_zero]
    rfl
  | succ fuel ih =>
    intro d bs had hfd
    simp only [extBack]
    by_cases hd : alo < d
    · rw [if_pos ⟨hd, hd, bjunkMem_false isjunk b hj _, trivial⟩]
      rw [ih (d - 1) (bs + 1) (by omega) (by omega)]
      have e : bs + 1 + (d - 1 - alo) = bs + (d - alo) := by omega
      rw [e]
    · rw [if_neg (fun hcon => hd hcon.1)]
      have hd' : d = alo := by omega
      subst hd'
      rw [Nat.sub_self, Nat.add_zero]

theorem extFwd_diag (hj : ∀ x, isjunk x = false) (ahi : ℕ) :
    ∀ fuel d bs, d + bs ≤ ahi → ahi - d - bs ≤ fuel →
    extFwd isjunk b b false ahi ahi fuel d d bs = ahi - d := by
  intro fuel
  induction fuel with
  | zero =>
    intro d bs hd hf
    show bs = ahi - d
    omega
  | succ fuel ih =>
    intro d bs hd hf
    simp only [extFwd]
    by_cases hlt : d + bs < ahi
    · rw [if_pos ⟨hlt, hlt, bjunkMem_false isjunk b hj _, trivial⟩]
      exact ih d (bs + 1) (by omega) (by omega)
    · rw [if_neg (fun hcon => hlt hcon.1)]
      omega

theorem extBack_noop_junk (hj : ∀ x, isjunk x = false) (alo blo : ℕ) :
    ∀ fuel bi bj bs,
    extBack isjunk b b true alo blo fuel bi bj bs = (bi, bj, bs) := by
  intro fuel bi bj bs
  cases fuel with
  | zero => rfl
  | succ fuel =>
    simp only [extBack]
    rw [if_neg]
    intro hcon
    have := hcon.2.2.1
    rw [bjunkMem_false isjunk b hj] at this
    exact absurd this (by simp)

theorem extFwd_noop_junk (hj : ∀ x, isjunk x = false) (ahi bhi : ℕ) :
    ∀ fuel bi bj bs,
    extFwd isjunk b b true ahi bhi fuel bi bj bs = bs := by
  intro fuel bi bj bs
  cases fuel with
  | zero => rfl
  | succ fuel =>
    simp only [extFwd]
    rw [if_neg]
    intro hcon
    have := hcon.2.2.1
    rw [bjunkMem_false isjunk b hj] at this
    exact absurd this (by simp)

/-- On identical inputs with no junk, `find_longest_match` returns the whole
diagonal window: the main loop's best is diagonal, the first backward loop
drags it to the window start, the first forward loop closes the whole window,
and the junk-phase loops do nothing. -/
theorem flm_identity (hj : ∀ x, isjunk x = false) (alo ahi : ℕ)
    (hab : alo ≤ ahi) (hlen : ahi ≤ b.length) :
    flm isjunk autojunk b b alo ahi alo ahi = (alo, alo, ahi - alo) := by
  have hdiag := flmMain_identity isjunk autojunk b alo ahi hlen
  obtain ⟨h1, h2, h3, h4, _⟩ :=
    flmMain_inv isjunk autojunk b b alo ahi alo ahi hab
  set st := flmMain isjunk autojunk b b alo ahi alo ahi with hst
  show (let s := st
    let e1 := extBack isjunk b b false alo alo s.besti s.besti s.bestj s.bestsize
    let s2 := extFwd isjunk b b false ahi ahi ahi e1.1 e1.2.1 e1.2.2
    let e3 := extBack isjunk b b true alo alo e1.1 e1.1 e1.2.1 s2
    let s4 := extFwd isjunk b b true ahi ahi ahi e3.1 e3.2.1 e3.2.2
    (e3.1, e3.2.1, s4)) = (alo, alo, ahi - alo)
  simp only
  rw [← hdiag]
  rw [extBack_diag isjunk b hj alo st.besti st.besti st.bestsize h1 (by omega)]
  dsimp only
  rw [extFwd_diag isjunk b hj ahi ahi alo (st.bestsize + (st.besti - alo))
    (by omega) (by omega)]
  rw [extBack_noop_junk isjunk b hj alo alo alo alo alo (ahi - alo)]
  dsimp only
  rw [extFwd_noop_junk isjunk b hj ahi ahi ahi alo alo (ahi - alo)]

theorem getMatchingBlocks_identity (hj : ∀ x, isjunk x = false) :
    getMatchingBlocks isjunk autojunk b b =
      if b.length = 0 then [(0, 0, 0)]
      else [(0, 0, b.length), (b.length, b.length, 0)] := by
  have hflm : flm isjunk autojunk b b 0 b.length 0 b.length =
      (0, 0, b.length) := by
    have := flm_identity isjunk autojunk b hj 0 b.length (Nat.zero_le _)
      (le_refl _)
    rwa [Nat.sub_zero] at this
  unfold getMatchingBlocks
  by_cases hla : b.length = 0
  · rw [if_pos hla]
    rw [hla]
    rw [hla] at hflm
    show collapseGo (0, 0, 0) (mbRec isjunk autojunk b b (0 + 0 + 1) 0 0 0 0) ++
      [(0, 0, 0)] = [(0, 0, 0)]
    simp only [mbRec]
    rw [hflm]
    rfl
  · rw [if_neg hla]
    have hmb : mbRec isjunk autojunk b b (b.length + b.length + 1)
        0 b.length 0 b.length = [(0, 0, b.length)] := by
      simp only [mbRec]
      rw [hflm]
      simp only
      rw [if_neg hla]
      rw [if_neg (fun hcon => absurd hcon.1 (lt_irrefl 0))]
      rw [if_neg (by
        intro hcon
        have := hcon.1
        omega)]
      rfl
    rw [hmb]
    show collapseGo (0, 0, 0) [(0, 0, b.length)] ++ _ = _
    have hcol : collapseGo (0, 0, 0) [(0, 0, b.length)] = [(0, 0, b.length)] := by
      show (if (0 : ℕ) + 0 = 0 ∧ (0 : ℕ) + 0 = 0 then
          collapseGo (0, 0, 0 + b.length) []
        else (if (0 : ℕ) ≠ 0 then [((0 : ℕ), (0 : ℕ), (0 : ℕ))] else []) ++
          collapseGo (0, 0, b.length) []) = _
      rw [if_pos ⟨rfl, rfl⟩]
      show (if 0 + b.length ≠ 0 then [(0, 0, 0 + b.length)] else []) = _
      rw [Nat.zero_add]
      rw [if_pos hla]
    rw [hcol]
    rfl

end SMIdent3

end Difflib

namespace NDiff

theorem noJunk_false : ∀ x : Line, noJunk x = false := fun _ => rfl

/-- `Differ.compare` on identical inputs is the all-Unchanged dump. -/
theorem compare_identity (x : List Line) :
    compare x x = dump ' ' x 0 x.length := by
  rw [compare_eq_emitAll]
  have hlo : lineOpcodes x x =
      Difflib.opcodesGo 0 0 (Difflib.getMatchingBlocks noJunk true x x) := rfl
  rw [hlo, Difflib.getMatchingBlocks_identity noJunk true x noJunk_false]
  by_cases hx : x.length = 0
  · rw [if_pos hx, hx]
    rfl
  · rw [if_neg hx]
    have hops : Difflib.opcodesGo 0 0
        [(0, 0, x.length), (x.length, x.length, 0)] =
        [(Difflib.Tag.equal, 0, 0 + x.length, 0, 0 + x.length)] := by
      show ((if (0 : ℕ) < 0 ∧ (0 : ℕ) < 0 then
          [(Difflib.Tag.replace, (0 : ℕ), (0 : ℕ), (0 : ℕ), (0 : ℕ))]
        else if (0 : ℕ) < 0 then [(Difflib.Tag.delete, (0 : ℕ), (0 : ℕ), (0 : ℕ), (0 : ℕ))]
        else if (0 : ℕ) < 0 then [(Difflib.Tag.insert, (0 : ℕ), (0 : ℕ), (0 : ℕ), (0 : ℕ))]
        else []) ++
        (if x.length ≠ 0 then
          [(Difflib.Tag.equal, 0, 0 + x.length, 0, 0 + x.length)] else []) ++
        Difflib.opcodesGo (0 + x.length) (0 + x.length)
          [(x.length, x.length, 0)]) = _
      rw [if_pos hx]
      rw [Nat.zero_add]
      have htail : Difflib.opcodesGo x.length x.length
          [(x.length, x.length, 0)] = [] := by
        show ((if x.length < x.length ∧ x.length < x.length then
            [(Difflib.Tag.replace, x.length, x.length, x.length, x.length)]
          else if x.length < x.length then
            [(Difflib.Tag.delete, x.length, x.length, x.length, x.length)]
          else if x.length < x.length then
            [(Difflib.Tag.insert, x.length, x.length, x.length, x.length)]
          else []) ++
          (if (0 : ℕ) ≠ 0 then
            [(Difflib.Tag.equal, x.length, x.length + 0, x.length, x.length + 0)]
           else []) ++
          Difflib.opcodesGo (x.length + 0) (x.length + 0) []) = []
        rw [if_neg (fun hcon => absurd hcon.1 (lt_irrefl _))]
        rw [if_neg (lt_irrefl x.length)]
        rw [if_neg (lt_irrefl x.length)]
        rfl
      rw [htail]
      rw [if_neg (fun hcon => absurd hcon.1 (lt_irrefl (0 : ℕ)))]
      rfl
    rw [hops, Nat.zero_add]
    show dump ' ' x 0 x.length ++ [] = dump ' ' x 0 x.length
    rw [List.append_nil]

/-- `Differ.compare` against an empty right side is the all-Removed dump. -/
theorem compare_empty_right (x : List Line) :
    compare x [] = dump '-' x 0 x.length := by
  rw [compare_eq_emitAll]
  have hlo : lineOpcodes x [] =
      Difflib.opcodesGo 0 0 (Difflib.getMatchingBlocks noJunk true x []) := rfl
  rw [hlo]
  have hk : (Difflib.flm noJunk true x ([] : List Line) 0 x.length 0 0).2.2
      = 0 := by
    obtain ⟨_, _, _, hb4⟩ := Difflib.flm_bounds noJunk true x ([] : List Line)
      0 x.length 0 0 (Nat.zero_le _) (le_refl _)
    omega
  have hmb : Difflib.mbRec noJunk true x ([] : List Line)
      (x.length + 0 + 1) 0 x.length 0 0 = [] := by
    simp only [Difflib.mbRec]
    rcases hflm : Difflib.flm noJunk true x ([] : List Line) 0 x.length 0 0
      with ⟨i, j, k⟩
    rw [hflm] at hk
    simp only at hk
    subst hk
    simp only
    rw [if_pos trivial]
  have hblocks : Difflib.getMatchingBlocks noJunk true x ([] : List Line) =
      [(x.length, 0, 0)] := by
    show Difflib.collapseGo (0, 0, 0)
      (Difflib.mbRec noJunk true x ([] : List Line)
        (x.length + 0 + 1) 0 x.length 0 0) ++ [(x.length, 0, 0)] = _
    rw [hmb]
    rfl
  rw [hblocks]
  by_cases hx : x.length = 0
  · rw [hx]
    have : x = [] := List.length_eq_zero.mp hx
    subst this
    rfl
  · have hops : Difflib.opcodesGo 0 0 [(x.length, 0, 0)] =
        [(Difflib.Tag.delete, 0, x.length, 0, 0)] := by
      show ((if (0 : ℕ) < x.length ∧ (0 : ℕ) < 0 then
          [(Difflib.Tag.replace, 0, x.length, (0 : ℕ), (0 : ℕ))]
        else if (0 : ℕ) < x.length then
          [(Difflib.Tag.delete, 0, x.length, (0 : ℕ), (0 : ℕ))]
        else if (0 : ℕ) < 0 then
          [(Difflib.Tag.insert, 0, x.length, (0 : ℕ), (0 : ℕ))]
        else []) ++
        (if (0 : ℕ) ≠ 0 then
          [(Difflib.Tag.equal, x.length, x.length + 0, 0, 0 + 0)] else []) ++
        Difflib.opcodesGo (x.length + 0) (0 + 0) []) = _
      rw [if_neg (fun hcon => absurd hcon.2 (lt_irrefl (0 : ℕ)))]
      rw [if_pos (by omega : (0 : ℕ) < x.length)]
      rfl
    rw [hops]
    show dump '-' x 0 x.length ++ [] = dump '-' x 0 x.length
    rw [List.append_nil]

/-- `Differ.compare` against an empty left side is the all-Added dump. -/
theorem compare_empty_left (y : List Line) :
    compare [] y = dump '+' y 0 y.length := by
  rw [compare_eq_emitAll]
  have hlo : lineOpcodes [] y =
      Difflib.opcodesGo 0 0 (Difflib.getMatchingBlocks noJunk true [] y) := rfl
  rw [hlo]
  have hk : (Difflib.flm noJunk true ([] : List Line) y 0 0 0 y.length).2.2
      = 0 := by
    obtain ⟨_, _, hb3, _⟩ := Difflib.flm_bounds noJunk true ([] : List Line) y
      0 0 0 y.length (le_refl _) (Nat.zero_le _)
    omega
  have hmb : Difflib.mbRec noJunk true ([] : List Line) y
      (0 + y.length + 1) 0 0 0 y.length = [] := by
    simp only [Difflib.mbRec]
    rcases hflm : Difflib.flm noJunk true ([] : List Line) y 0 0 0 y.length
      with ⟨i, j, k⟩
    rw [hflm] at hk
    simp only at hk
    subst hk
    simp only
    rw [if_pos trivial]
  have hblocks : Difflib.getMatchingBlocks noJunk true ([] : List Line) y =
      [(0, y.length, 0)] := by
    show Difflib.collapseGo (0, 0, 0)
      (Difflib.mbRec noJunk true ([] : List Line) y
        (0 + y.length + 1) 0 0 0 y.length) ++ [(0, y.length, 0)] = _
    rw [hmb]
    rfl
  rw [hblocks]
  by_cases hy : y.length = 0
  · rw [hy]
    have : y = [] := List.length_eq_zero.mp hy
    subst this
    rfl
  · have hops : Difflib.opcodesGo 0 0 [(0, y.length, 0)] =
        [(Difflib.Tag.insert, 0, 0, 0, y.length)] := by
      show ((if (0 : ℕ) < 0 ∧ (0 : ℕ) < y.length then
          [(Difflib.Tag.replace, (0 : ℕ), (0 : ℕ), 0, y.length)]
        else if (0 : ℕ) < 0 then
          [(Difflib.Tag.delete, (0 : ℕ), (0 : ℕ), 0, y.length)]
        else if (0 : ℕ) < y.length then
          [(Difflib.Tag.insert, (0 : ℕ), (0 : ℕ), 0, y.length)]
        else []) ++
        (if (0 : ℕ) ≠ 0 then
          [(Difflib.Tag.equal, 0, 0 + 0, y.length, y.length + 0)] else []) ++
        Difflib.opcodesGo (0 + 0) (y.length + 0) []) = _
      rw [if_neg (fun hcon => absurd hcon.1 (lt_irrefl (0 : ℕ)))]
      rw [if_neg (lt_irrefl (0 : ℕ))]
      rw [if_pos (by omega : (0 : ℕ) < y.length)]
      rfl
    rw [hops]
    show dump '+' y 0 y.length ++ [] = dump '+' y 0 y.length
    rw [List.append_nil]

theorem mem_dump_take {tag : Char} {x : List Line} {lo hi : ℕ} {r : List Char}
    (hr : r ∈ dump tag x lo hi) : r.take 2 = [tag, ' '] := by
  rw [dump_eq_map] at hr
  obtain ⟨i, _, rfl⟩ := List.mem_map.mp hr
  rfl

end NDiff

/-!
## Claims about `src/deploy.py`
-/

theorem hasDiffE_ok_true_events (tf : DeployPy.TemplateFile) (ev1 : List DeployPy.Ev)
    (h : DeployPy.hasDiffE tf = Except.ok (true, ev1)) :
    ev1 = [DeployPy.Ev.renderCall, DeployPy.Ev.renderCall] := by
  cases htf : tf.raw with
  | error e =>
    unfold DeployPy.hasDiffE DeployPy.renderE at h
    rw [htf] at h
    exact absurd h (by simp)
  | ok raw =>
    unfold DeployPy.hasDiffE DeployPy.renderE at h
    rw [htf] at h
    dsimp only at h
    split at h
    · exact absurd h (by simp)
    · simp only [Except.ok.injEq, Prod.mk.injEq] at h
      exact h.2.symm

theorem hasDiffE_ok_render (tf : DeployPy.TemplateFile) (x : Bool × List DeployPy.Ev)
    (h : DeployPy.hasDiffE tf = Except.ok x) :
    DeployPy.renderE tf = Except.ok (match tf.raw with
      | Except.ok r => DeployPy.render r
      | Except.error _ => []) := by
  cases htf : tf.raw with
  | error e =>
    unfold DeployPy.hasDiffE DeployPy.renderE at h
    rw [htf] at h
    exact absurd h (by simp)
  | ok raw =>
    unfold DeployPy.renderE
    rw [htf]

/-- C3: `has_diff()` is false exactly when either the rendered text stripped
of surrounding whitespace is empty and no destination file exists, or the
existing contents equal the rendered text; in particular a missing file with
a non-whitespace render is always a diff, and an existing file (even empty)
with different contents is always a diff. -/
theorem claim_C3 :
    (∀ raw dest, DeployPy.has_diff raw dest = false ↔
      ((PyStr.pyStrip (DeployPy.render raw) = [] ∧ dest = none) ∨
        dest = some (DeployPy.render raw))) ∧
    (∀ raw, PyStr.pyStrip (DeployPy.render raw) ≠ [] →
      DeployPy.has_diff raw none = true) ∧
    (∀ raw t, t ≠ DeployPy.render raw →
      DeployPy.has_diff raw (some t) = true) := by
  have key : ∀ raw dest, DeployPy.has_diff raw dest = false ↔
      ((PyStr.pyStrip (DeployPy.render raw) = [] ∧ dest = none) ∨
        dest = some (DeployPy.render raw)) := by
    intro raw dest
    cases dest with
    | none =>
      unfold DeployPy.has_diff
      by_cases hs : PyStr.pyStrip (DeployPy.render raw) = []
      · rw [if_pos ⟨hs, rfl⟩]
        simp [hs]
      · rw [if_neg (fun hh => hs hh.1)]
        simp [hs]
    | some t =>
      unfold DeployPy.has_diff
      rw [if_neg (by simp)]
      simp
  refine ⟨key, ?_, ?_⟩
  · intro raw hne
    cases h : DeployPy.has_diff raw none with
    | true => rfl
    | false =>
      rcases (key raw none).mp h with ⟨h1, _⟩ | h2
      · exact absurd h1 hne
      · exact absurd h2 (by simp)
  · intro raw t hne
    cases h : DeployPy.has_diff raw (some t) with
    | true => rfl
    | false =>
      rcases (key raw (some t)).mp h with ⟨_, h1⟩ | h2
      · exact absurd h1 (by simp)
      · exact absurd (by injection h2) hne

/-- Closed instance of `claim_C3` at concrete inputs. -/
theorem claim_C3_witness :
    DeployPy.has_diff "x".data none = true ∧
    DeployPy.has_diff "x".data (some "y".data) = true :=
  ⟨claim_C3.2.1 "x".data (by decide), claim_C3.2.2 "x".data "y".data (by decide)⟩

/-- C4: `render()` is the collaborator's raw output with exactly one trailing
line terminator appended, and after a confirmed overwrite the destination
reads back exactly the rendered text, so `has_diff` is false on recheck (the
`hasDiffE` conjunct is the recheck the review loop performs, with its two
render calls). -/
theorem claim_C4 :
    (∀ raw : List Char, DeployPy.render raw = raw ++ ['\n']) ∧
    (∀ raw tf, (DeployPy.write raw tf).dest = some (DeployPy.render raw) ∧
      DeployPy.has_diff raw (DeployPy.write raw tf).dest = false) ∧
    (∀ raw : List Char,
      DeployPy.hasDiffE ⟨Except.ok raw, some (DeployPy.render raw)⟩ =
        Except.ok (false, [DeployPy.Ev.renderCall, DeployPy.Ev.renderCall])) := by
  refine ⟨fun raw => rfl, fun raw tf => ⟨rfl, ?_⟩, fun raw => ?_⟩
  · unfold DeployPy.has_diff DeployPy.write
    split
    · rfl
    · simp
  · unfold DeployPy.hasDiffE DeployPy.renderE
    dsimp only
    rw [if_neg (by simp)]
    simp

/-- C5: a template whose group has a non-empty `install_if` expression
evaluating falsy is skipped before `click.clear()`, before `TemplateFile`
creation and before any render — the result is `skipped` with an empty event
trace even for an item whose render raises; a group with no expression
proceeds to the review loop. -/
theorem claim_C5 :
    (∀ (installIf : String → Option String) (evalExpr : String → Bool)
      (group : String) editFx diffOnly tf cmds expr,
      installIf group = some expr → expr ≠ "" → evalExpr expr = false →
      DeployPy.processTemplate installIf evalExpr group editFx diffOnly tf cmds =
        Except.ok (tf, [], DeployPy.Outcome.skipped)) ∧
    (∀ (installIf : String → Option String) (evalExpr : String → Bool)
      (group : String) editFx diffOnly tf cmds,
      installIf group = none →
      DeployPy.processTemplate installIf evalExpr group editFx diffOnly tf cmds =
        (match DeployPy.reviewLoop editFx diffOnly tf cmds with
         | Except.error e => Except.error e
         | Except.ok (tf', ev, o) => Except.ok (tf', DeployPy.Ev.cleared :: ev, o))) := by
  constructor
  · intro installIf evalExpr group editFx diffOnly tf cmds expr hsome hne hfalse
    unfold DeployPy.processTemplate
    simp only [hsome]
    rw [if_pos hne, hfalse]
    simp
  · intro installIf evalExpr group editFx diffOnly tf cmds hnone
    unfold DeployPy.processTemplate
    simp only [hnone]

/-- Closed instance of `claim_C5`: a group gated by a falsy expression is
skipped with no events even though its render raises. -/
theorem claim_C5_witness :
    DeployPy.processTemplate (fun _ => some "work") (fun _ => false) "xmodmap" id
      false ⟨Except.error (), none⟩ [] =
      Except.ok (⟨Except.error (), none⟩, [], DeployPy.Outcome.skipped) :=
  claim_C5.1 (fun _ => some "work") (fun _ => false) "xmodmap" id false
    ⟨Except.error (), none⟩ [] "work" rfl (by decide) rfl

/-- C6 counterexample: with an existing destination differing from the render,
pressing `o` and declining the confirmation does not return straight to the
prompt — the loop falls through to its top and re-creates, re-renders
(`renderCall` events after the first `prompted`) and re-prints the diff before
prompting again.  (No state is mutated: the resulting item state is the
initial one.)  This refutes "returns control to the decision prompt (step 2)
without looping through re-render" for `src/deploy.py`. -/
theorem claim_C6_counterexample :
    DeployPy.reviewLoop id false ⟨Except.ok "new".data, some "old\n".data⟩
        [DeployPy.Cmd.o false, DeployPy.Cmd.s] =
      Except.ok (⟨Except.ok "new".data, some "old\n".data⟩,
        [DeployPy.Ev.renderCall, DeployPy.Ev.renderCall, DeployPy.Ev.renderCall,
         DeployPy.Ev.printedDiff, DeployPy.Ev.prompted,
         DeployPy.Ev.renderCall, DeployPy.Ev.renderCall, DeployPy.Ev.renderCall,
         DeployPy.Ev.printedDiff, DeployPy.Ev.prompted],
        DeployPy.Outcome.resolved) ∧
    ([DeployPy.Ev.renderCall, DeployPy.Ev.renderCall, DeployPy.Ev.renderCall,
      DeployPy.Ev.printedDiff, DeployPy.Ev.prompted,
      DeployPy.Ev.renderCall, DeployPy.Ev.renderCall, DeployPy.Ev.renderCall,
      DeployPy.Ev.printedDiff, DeployPy.Ev.prompted].drop 5).contains
        DeployPy.Ev.renderCall = true := by
  constructor
  · decide
  · decide

/-- C6 as amended: declining the secondary confirmation of an overwrite
returns control to the **top of the loop** (step 1) — the loop continues on
the same unmutated item state, but only reaches the next prompt through a
fresh `has_diff` (two renders) and a fresh diff print (another render) — not
directly to the prompt. -/
theorem claim_C6_amended (editFx : DeployPy.TemplateFile → DeployPy.TemplateFile)
    (tf : DeployPy.TemplateFile) (rest : List DeployPy.Cmd) (ev1 : List DeployPy.Ev)
    (h : DeployPy.hasDiffE tf = Except.ok (true, ev1)) :
    ev1 = [DeployPy.Ev.renderCall, DeployPy.Ev.renderCall] ∧
    DeployPy.reviewLoop editFx false tf (DeployPy.Cmd.o false :: rest) =
      (match DeployPy.reviewLoop editFx false tf rest with
       | Except.error e => Except.error e
       | Except.ok (tf', ev', o) =>
         Except.ok (tf', ev1 ++ [DeployPy.Ev.renderCall, DeployPy.Ev.printedDiff,
           DeployPy.Ev.prompted] ++ ev', o)) := by
  refine ⟨hasDiffE_ok_true_events tf ev1 h, ?_⟩
  have hr := hasDiffE_ok_render tf (true, ev1) h
  conv_lhs => rw [DeployPy.reviewLoop]
  rw [h, hr]
  rfl

/-- Closed instance of `claim_C6_amended` at a concrete item and input. -/
theorem claim_C6_witness :
    [DeployPy.Ev.renderCall, DeployPy.Ev.renderCall] =
      [DeployPy.Ev.renderCall, DeployPy.Ev.renderCall] ∧
    DeployPy.reviewLoop id false ⟨Except.ok "new".data, some "old\n".data⟩
        [DeployPy.Cmd.o false, DeployPy.Cmd.s] =
      (match DeployPy.reviewLoop id false ⟨Except.ok "new".data, some "old\n".data⟩
          [DeployPy.Cmd.s] with
       | Except.error e => Except.error e
       | Except.ok (tf', ev', o) =>
         Except.ok (tf', [DeployPy.Ev.renderCall, DeployPy.Ev.renderCall] ++
           [DeployPy.Ev.renderCall, DeployPy.Ev.printedDiff,
            DeployPy.Ev.prompted] ++ ev', o)) :=
  claim_C6_amended id ⟨Except.ok "new".data, some "old\n".data⟩ [DeployPy.Cmd.s]
    [DeployPy.Ev.renderCall, DeployPy.Ev.renderCall] (by decide)

theorem specMachine_osrc (renderFn : List Char → List Char)
    (editFx : SpecLoop.Item → SpecLoop.Item) (it : SpecLoop.Item)
    (ds : List SpecLoop.Decision) (fuel : ℕ) (dbytes : List Char)
    (hdest : it.dest = some dbytes) :
    SpecLoop.specMachine renderFn editFx (fuel + 1) false it
        (SpecLoop.Decision.overwriteSrc true :: ds) =
      ({ it with src := dbytes }, SpecLoop.SpecOutcome.resolved) := by
  rw [SpecLoop.specMachine]
  rw [hdest]
  rfl

/-- C7: the decision prompt of the consolidated review machine accepts
exactly Edit, Refresh, Skip, OverwriteDestination, OverwriteSource,
ClearScreen and Quit; a confirmed OverwriteSource copies the destination's
current bytes onto the template source and resolves the item.  (The
OverwriteSource/ClearScreen evolution of the review loop is not under `src/`;
the machine is modelled from §3 and §4.4 of the spec.) -/
theorem claim_C7 :
    (∀ d : SpecLoop.Decision, d = SpecLoop.Decision.edit ∨
      d = SpecLoop.Decision.refresh ∨ d = SpecLoop.Decision.skip ∨
      (∃ c, d = SpecLoop.Decision.overwriteDest c) ∨
      (∃ c, d = SpecLoop.Decision.overwriteSrc c) ∨
      d = SpecLoop.Decision.clearScreen ∨ d = SpecLoop.Decision.quit) ∧
    (∀ renderFn editFx (it : SpecLoop.Item) ds dbytes, it.dest = some dbytes →
      SpecLoop.hasDiffS renderFn it = true →
      SpecLoop.specReview renderFn editFx it
          (SpecLoop.Decision.overwriteSrc true :: ds) =
        ({ it with src := dbytes }, SpecLoop.SpecOutcome.resolved)) := by
  constructor
  · intro d
    cases d with
    | edit => exact Or.inl rfl
    | refresh => exact Or.inr (Or.inl rfl)
    | skip => exact Or.inr (Or.inr (Or.inl rfl))
    | overwriteDest c => exact Or.inr (Or.inr (Or.inr (Or.inl ⟨c, rfl⟩)))
    | overwriteSrc c => exact Or.inr (Or.inr (Or.inr (Or.inr (Or.inl ⟨c, rfl⟩))))
    | clearScreen => exact Or.inr (Or.inr (Or.inr (Or.inr (Or.inr (Or.inl rfl)))))
    | quit => exact Or.inr (Or.inr (Or.inr (Or.inr (Or.inr (Or.inr rfl)))))
  · intro renderFn editFx it ds dbytes hdest hdiff
    unfold SpecLoop.specReview
    have hlen : 2 * (SpecLoop.Decision.overwriteSrc true :: ds).length + 2 =
        (2 * ds.length + 3) + 1 := by
      simp [List.length_cons]
      omega
    rw [hlen, SpecLoop.specMachine, hdiff]
    simp only [Bool.true_eq_false, if_false]
    exact specMachine_osrc renderFn editFx it ds (2 * ds.length + 2) dbytes hdest

/-- Closed instance of `claim_C7` at a concrete item. -/
theorem claim_C7_witness :
    SpecLoop.specReview (fun s => s) (fun it => it)
        ⟨"tpl".data, some "dst\n".data⟩ [SpecLoop.Decision.overwriteSrc true] =
      (⟨"dst\n".data, some "dst\n".data⟩, SpecLoop.SpecOutcome.resolved) :=
  claim_C7.2 (fun s => s) (fun it => it) ⟨"tpl".data, some "dst\n".data⟩ []
    "dst\n".data rfl (by decide)

/-!
## Claims about `src/diff.py`'s `pretty_print`
-/

namespace DiffPy

theorem mem_insertSorted (y : ℤ) : ∀ (l : List ℤ) (x : ℤ),
    x ∈ insertSorted y l ↔ x = y ∨ x ∈ l := by
  intro l
  induction l with
  | nil => intro x; simp [insertSorted]
  | cons z rest ih =>
    intro x
    unfold insertSorted
    by_cases h1 : y < z
    · rw [if_pos h1]; simp
    · rw [if_neg h1]
      by_cases h2 : y = z
      · rw [if_pos h2]
        subst h2
        simp only [List.mem_cons]
        constructor
        · intro h; exact Or.inr h
        · rintro (h | h)
          · exact Or.inl h
          · exact h
      · rw [if_neg h2]
        simp only [List.mem_cons, ih x]
        constructor
        · rintro (h | h | h)
          · exact Or.inr (Or.inl h)
          · exact Or.inl h
          · exact Or.inr (Or.inr h)
        · rintro (h | h | h)
          · exact Or.inr (Or.inl h)
          · exact Or.inl h
          · exact Or.inr (Or.inr h)

theorem mem_rangeInt (lo hi x : ℤ) : x ∈ rangeInt lo hi ↔ lo ≤ x ∧ x < hi := by
  unfold rangeInt
  simp only [List.mem_map, List.mem_range]
  constructor
  · rintro ⟨t, ht, rfl⟩
    omega
  · intro ⟨h1, h2⟩
    exact ⟨(x - lo).toNat, by omega, by omega⟩

theorem mem_foldl_insertSorted : ∀ (js : List ℤ) (acc : List ℤ) (x : ℤ),
    x ∈ js.foldl (fun ac j => insertSorted j ac) acc ↔ x ∈ js ∨ x ∈ acc := by
  intro js
  induction js with
  | nil => intro acc x; simp
  | cons j rest ih =>
    intro acc x
    simp only [List.foldl_cons, ih, mem_insertSorted, List.mem_cons]
    tauto

theorem mem_relevantSorted (d : List (List Char)) (c : ℕ) (x : ℤ) :
    x ∈ relevantSorted d c ↔
      ∃ j, j < d.length ∧ ¬ (d.getD j []).take 2 = "  ".data ∧
        (j : ℤ) - c ≤ x ∧ x < (j : ℤ) + c := by
  have main : ∀ (l : List ℕ) (acc : List ℤ),
      x ∈ l.foldl
        (fun acc i =>
          if (d.getD i []).take 2 = "  ".data then acc
          else (rangeInt ((i : ℤ) - (c : ℤ)) ((i : ℤ) + (c : ℤ))).foldl
            (fun ac j => insertSorted j ac) acc)
        acc ↔
      (∃ j ∈ l, ¬ (d.getD j []).take 2 = "  ".data ∧
        (j : ℤ) - c ≤ x ∧ x < (j : ℤ) + c) ∨ x ∈ acc := by
    intro l
    induction l with
    | nil => intro acc; simp
    | cons i rest ih =>
      intro acc
      simp only [List.foldl_cons]
      by_cases hrel : (d.getD i []).take 2 = "  ".data
      · rw [if_pos hrel]
        rw [ih]
        simp only [List.mem_cons]
        constructor
        · rintro (⟨j, hj, hcond⟩ | h)
          · exact Or.inl ⟨j, Or.inr hj, hcond⟩
          · exact Or.inr h
        · rintro (⟨j, hj | hj, hcond⟩ | h)
          · subst hj; exact absurd hrel hcond.1
          · exact Or.inl ⟨j, hj, hcond⟩
          · exact Or.inr h
      · rw [if_neg hrel]
        rw [ih]
        simp only [mem_foldl_insertSorted, mem_rangeInt, List.mem_cons]
        constructor
        · rintro (⟨j, hj, hcond⟩ | hw | h)
          · exact Or.inl ⟨j, Or.inr hj, hcond⟩
          · exact Or.inl ⟨i, Or.inl rfl, hrel, hw⟩
          · exact Or.inr h
        · rintro (⟨j, hj | hj, hcond⟩ | h)
          · subst hj; exact Or.inr (Or.inl hcond.2)
          · exact Or.inl ⟨j, hj, hcond⟩
          · exact Or.inr (Or.inr h)
  unfold relevantSorted
  rw [main]
  simp only [List.mem_range, List.not_mem_nil, or_false]

theorem gapRows_none (x : ℤ) : gapRows none x = [] := rfl

theorem gapRows_pos (p x : ℤ) (h : x ≠ p + 1) :
    gapRows (some p) x = [DisplayRow.gap] := by
  show (if x ≠ p + 1 then [DisplayRow.gap] else []) = [DisplayRow.gap]
  rw [if_pos h]

theorem gapRows_neg (p x : ℤ) (h : ¬ x ≠ p + 1) : gapRows (some p) x = [] := by
  show (if x ≠ p + 1 then [DisplayRow.gap] else []) = []
  rw [if_neg h]

theorem line_not_mem_gapRows (last : Option ℤ) (x i : ℤ) (s : List Char) :
    DisplayRow.line i s ∉ gapRows last x := by
  rcases last with _ | p
  · rw [gapRows_none]; simp
  · by_cases hne : x ≠ p + 1
    · rw [gapRows_pos p x hne]; simp
    · rw [gapRows_neg p x hne]; simp

theorem line_mem_emitRows (d : List (List Char)) : ∀ (l : List ℤ) (last : Option ℤ)
    (i : ℤ) (s : List Char),
    DisplayRow.line i s ∈ emitRows d last l ↔
      (i ∈ l ∧ 0 ≤ i ∧ i < (d.length : ℤ) ∧
        s = formatColourful (d.getD i.toNat [])) := by
  intro l
  induction l with
  | nil => intro last i s; simp [emitRows]
  | cons x rest ih =>
    intro last i s
    unfold emitRows
    by_cases hb : x < 0 ∨ (d.length : ℤ) ≤ x
    · rw [if_pos hb, ih]
      simp only [List.mem_cons]
      constructor
      · rintro ⟨h1, h2⟩; exact ⟨Or.inr h1, h2⟩
      · rintro ⟨h1 | h1, h2⟩
        · subst h1; omega
        · exact ⟨h1, h2⟩
    · rw [if_neg hb]
      simp only [List.mem_append, List.mem_cons, ih]
      constructor
      · rintro (hg | hl | hrest)
        · exact absurd hg (line_not_mem_gapRows last x i s)
        · simp only [DisplayRow.line.injEq] at hl
          obtain ⟨rfl, rfl⟩ := hl
          exact ⟨Or.inl rfl, by omega, by omega, rfl⟩
        · obtain ⟨h1, h2⟩ := hrest
          exact ⟨Or.inr h1, h2⟩
      · rintro ⟨hx | hmem, h0, hlen, hs⟩
        · subst hx; subst hs
          exact Or.inr (Or.inl rfl)
        · exact Or.inr (Or.inr ⟨hmem, h0, hlen, hs⟩)

theorem line_mem_prettyPrint (d : List (List Char)) (c : ℕ) (i : ℤ) (s : List Char) :
    DisplayRow.line i s ∈ prettyPrint d c ↔
      ((∃ j, j < d.length ∧ ¬ (d.getD j []).take 2 = "  ".data ∧
        (j : ℤ) - c ≤ i ∧ i < (j : ℤ) + c) ∧
       0 ≤ i ∧ i < (d.length : ℤ) ∧
       s = formatColourful (d.getD i.toNat [])) := by
  unfold prettyPrint
  rw [line_mem_emitRows, mem_relevantSorted]

/-- `pretty_print`'s loop emits `"..."` exactly when the emitted index is not
`last + 1`, never leads, never trails, never doubles. -/
def gapsOk : Option ℤ → List DisplayRow → Bool
  | _, [] => true
  | none, DisplayRow.gap :: _ => false
  | none, DisplayRow.line i _ :: rest => gapsOk (some i) rest
  | some p, DisplayRow.line i _ :: rest => decide (i = p + 1) && gapsOk (some i) rest
  | some p, DisplayRow.gap :: DisplayRow.line i _ :: rest =>
    decide (i ≠ p + 1) && gapsOk (some i) rest
  | some _, DisplayRow.gap :: DisplayRow.gap :: _ => false
  | some _, [DisplayRow.gap] => false

theorem gapsOk_emitRows (d : List (List Char)) : ∀ (l : List ℤ) (last : Option ℤ),
    gapsOk last (emitRows d last l) = true := by
  intro l
  induction l with
  | nil => intro last; cases last <;> rfl
  | cons x rest ih =>
    intro last
    unfold emitRows
    by_cases hb : x < 0 ∨ (d.length : ℤ) ≤ x
    · rw [if_pos hb]; exact ih last
    · rw [if_neg hb]
      rcases last with _ | p
      · rw [gapRows_none, List.nil_append]
        show gapsOk (some x) (emitRows d (some x) rest) = true
        exact ih (some x)
      · by_cases hne : x ≠ p + 1
        · rw [gapRows_pos p x hne, List.singleton_append]
          show (decide (x ≠ p + 1) && gapsOk (some x) (emitRows d (some x) rest))
            = true
          rw [decide_eq_true hne, Bool.true_and]
          exact ih (some x)
        · rw [gapRows_neg p x hne, List.nil_append]
          show (decide (x = p + 1) && gapsOk (some x) (emitRows d (some x) rest))
            = true
          rw [decide_eq_true (by omega : x = p + 1), Bool.true_and]
          exact ih (some x)

end DiffPy

/-- C2 counterexample: for before=`"x\ny\nz\n"`, after=`"x\nY\nz\n"` and
`context_lines = 1` the display shows only `x`, `-y`, `+Y` — the trailing
context line `z` (script index 3) is **not** shown, because the window is
`range(i - c, i + c)`, which extends only `c - 1` lines after a change; and
with `context_lines = 0` nothing at all is shown (the window `range(i, i)` is
empty), not "exactly the changed lines". -/
theorem claim_C2_counterexample :
    DiffPy.prettyPrint (DiffPy.diff "x\ny\nz\n".data "x\nY\nz\n".data) 1 =
      [DiffPy.DisplayRow.line 0 "  x".data,
       DiffPy.DisplayRow.line 1 (DiffPy.formatColourful "- y".data),
       DiffPy.DisplayRow.line 2 (DiffPy.formatColourful "+ Y".data)] ∧
    DiffPy.prettyPrint (DiffPy.diff "x\ny\nz\n".data "x\nY\nz\n".data) 0 = [] := by
  constructor
  · decide
  · decide

/-- C2 as amended: the relevant set expands each changed index `i` to
`range(i - context_lines, i + context_lines)` — `context_lines` indices
before but only `context_lines - 1` after, clipped to script bounds; with
`context_lines = 0` the relevant set is empty and nothing is displayed; in
the scenario before=`"x\ny\nz\n"`, after=`"x\nY\nz\n"`, `context_lines = 1`,
the rows shown are `x`, `-y`, `+Y` with no gap marker (`z` is omitted). -/
theorem claim_C2_amended :
    (∀ (d : List (List Char)) (c : ℕ) (i : ℤ) (s : List Char),
      DiffPy.DisplayRow.line i s ∈ DiffPy.prettyPrint d c ↔
        ((∃ j, j < d.length ∧ ¬ (d.getD j []).take 2 = "  ".data ∧
          (j : ℤ) - c ≤ i ∧ i < (j : ℤ) + c) ∧
         0 ≤ i ∧ i < (d.length : ℤ) ∧
         s = DiffPy.formatColourful (d.getD i.toNat []))) ∧
    (∀ d, DiffPy.prettyPrint d 0 = []) ∧
    DiffPy.prettyPrint (DiffPy.diff "x\ny\nz\n".data "x\nY\nz\n".data) 1 =
      [DiffPy.DisplayRow.line 0 "  x".data,
       DiffPy.DisplayRow.line 1 (DiffPy.formatColourful "- y".data),
       DiffPy.DisplayRow.line 2 (DiffPy.formatColourful "+ Y".data)] := by
  refine ⟨DiffPy.line_mem_prettyPrint, ?_, by decide⟩
  intro d
  unfold DiffPy.prettyPrint
  have hempty : DiffPy.relevantSorted d 0 = [] := by
    rw [List.eq_nil_iff_forall_not_mem]
    intro x hx
    rw [DiffPy.mem_relevantSorted] at hx
    obtain ⟨j, _, _, h1, h2⟩ := hx
    omega
  rw [hempty]
  rfl

/-- C8: every emitted display row's script index is within `N` of some index
whose row is not Unchanged (does not start with two blanks), and gap markers
appear exactly at discontinuities between consecutive emitted indices (no
leading, trailing or doubled markers). -/
theorem claim_C8 :
    (∀ (d : List (List Char)) (c : ℕ) (i : ℤ) (s : List Char),
      DiffPy.DisplayRow.line i s ∈ DiffPy.prettyPrint d c →
      ∃ j, j < d.length ∧ ¬ (d.getD j []).take 2 = "  ".data ∧
        (i - (j : ℤ)).natAbs ≤ c) ∧
    (∀ (d : List (List Char)) (c : ℕ),
      DiffPy.gapsOk none (DiffPy.prettyPrint d c) = true) := by
  constructor
  · intro d c i s hmem
    rw [DiffPy.line_mem_prettyPrint] at hmem
    obtain ⟨⟨j, hj, hrel, h1, h2⟩, _⟩ := hmem
    exact ⟨j, hj, hrel, by omega⟩
  · intro d c
    exact DiffPy.gapsOk_emitRows d (DiffPy.relevantSorted d c) none

/-- Closed instance of `claim_C8` at a concrete diff. -/
theorem claim_C8_witness :
    ∃ j, j < (DiffPy.diff "x\ny\nz\n".data "x\nY\nz\n".data).length ∧
      ¬ ((DiffPy.diff "x\ny\nz\n".data "x\nY\nz\n".data).getD j []).take 2 =
        "  ".data ∧
      ((0 : ℤ) - (j : ℤ)).natAbs ≤ 1 :=
  claim_C8.1 (DiffPy.diff "x\ny\nz\n".data "x\nY\nz\n".data) 1 0 "  x".data
    (by decide)

/-- C10: `diff` can return rows that are none of Unchanged / Removed / Added —
the `'? '`-prefixed intraline hint rows of `difflib.ndiff` (here for
before=`"abcde\n"`, after=`"abXde\n"`); `pretty_print` treats any row not
beginning with two blanks as relevant, so a hint row is itself displayed and
its surrounding window indices all enter the relevant set. -/
theorem claim_C10 :
    (DiffPy.diff "abcde\n".data "abXde\n".data =
      ["- abcde".data, "?   ^\n".data, "+ abXde".data, "?   ^\n".data]) ∧
    (¬ "?   ^\n".data.take 2 = "  ".data ∧ ¬ "?   ^\n".data.take 2 = "- ".data ∧
     ¬ "?   ^\n".data.take 2 = "+ ".data) ∧
    (∀ (d : List (List Char)) (c : ℕ) (j : ℕ) (i : ℤ),
      j < d.length → ¬ (d.getD j []).take 2 = "  ".data →
      (j : ℤ) - c ≤ i → i < (j : ℤ) + c → i ∈ DiffPy.relevantSorted d c) ∧
    DiffPy.DisplayRow.line 1 (DiffPy.formatColourful "?   ^\n".data) ∈
      DiffPy.prettyPrint (DiffPy.diff "abcde\n".data "abXde\n".data) 2 := by
  refine ⟨by decide, by decide, ?_, by decide⟩
  intro d c j i hj hrel h1 h2
  rw [DiffPy.mem_relevantSorted]
  exact ⟨j, hj, hrel, h1, h2⟩

/-- Closed instance of `claim_C10`: the script index before the first hint row
of the concrete diff is in the relevant set at `context_lines = 2`. -/
theorem claim_C10_witness :
    (0 : ℤ) ∈ DiffPy.relevantSorted (DiffPy.diff "abcde\n".data "abXde\n".data) 2 :=
  claim_C10.2.2.1 (DiffPy.diff "abcde\n".data "abXde\n".data) 2 1 0
    (by decide) (by decide) (by decide) (by decide)

/-- C1 counterexample: the delta is computed from the splitlines of the two
strings, and splitting is lossy — `"x"` and `"x\n"` split to the same line
list, so their diffs coincide while the strings differ.  No re-derivation
from the delta can reproduce both strings exactly. -/
theorem claim_C1_counterexample :
    DiffPy.diff "x".data "x\n".data = DiffPy.diff "x\n".data "x".data ∧
    DiffPy.diff "x".data "x".data = DiffPy.diff "x\n".data "x\n".data ∧
    "x".data ≠ "x\n".data := by
  refine ⟨by decide, by decide, by decide⟩

/-- C1 as amended: re-deriving the Removed+Unchanged rows (in order, with the
two-character prefix stripped) of `diff(a, b)` reproduces exactly
`a.splitlines()`, and the Added+Unchanged rows reproduce exactly
`b.splitlines()` — the line lists, not the raw strings. -/
theorem claim_C1_amended (a b : List Char) :
    NDiff.restoreM (DiffPy.diff a b) = PyStr.splitlines a ∧
    NDiff.restoreP (DiffPy.diff a b) = PyStr.splitlines b := by
  unfold DiffPy.diff
  exact NDiff.compare_restore (PyStr.splitlines a) (PyStr.splitlines b)

/-- C9: `diff(x, x)` is the all-Unchanged script — every row starts `"  "`
(zero Added and zero Removed rows); `diff` of two empty inputs is the empty
script; with exactly one empty input the script is one-sided, all Removed
(`"- "`) resp. all Added (`"+ "`). -/
theorem claim_C9 :
    (∀ x : List Char, DiffPy.diff x x =
      NDiff.dump ' ' (PyStr.splitlines x) 0 (PyStr.splitlines x).length) ∧
    (∀ (x r : List Char), r ∈ DiffPy.diff x x → r.take 2 = "  ".data) ∧
    DiffPy.diff [] [] = [] ∧
    (∀ (x r : List Char), r ∈ DiffPy.diff x [] → r.take 2 = "- ".data) ∧
    (∀ (x r : List Char), r ∈ DiffPy.diff [] x → r.take 2 = "+ ".data) := by
  have h1 : ∀ x : List Char, DiffPy.diff x x =
      NDiff.dump ' ' (PyStr.splitlines x) 0 (PyStr.splitlines x).length := by
    intro x
    unfold DiffPy.diff
    exact NDiff.compare_identity (PyStr.splitlines x)
  refine ⟨h1, ?_, by decide, ?_, ?_⟩
  · intro x r hr
    rw [h1 x] at hr
    exact NDiff.mem_dump_take hr
  · intro x r hr
    unfold DiffPy.diff at hr
    have hempty : PyStr.splitlines ([] : List Char) = [] := rfl
    rw [hempty, NDiff.compare_empty_right] at hr
    exact NDiff.mem_dump_take hr
  · intro x r hr
    unfold DiffPy.diff at hr
    have hempty : PyStr.splitlines ([] : List Char) = [] := rfl
    rw [hempty, NDiff.compare_empty_left] at hr
    exact NDiff.mem_dump_take hr

/-- Closed instance of `claim_C9` at concrete inputs. -/
theorem claim_C9_witness :
    ("  a".data : List Char).take 2 = "  ".data ∧
    ("- a".data : List Char).take 2 = "- ".data :=
  ⟨claim_C9.2.1 "a".data "  a".data (by decide),
   claim_C9.2.2.2.1 "a".data "- a".data (by decide)⟩
